import Mathlib

/-!
Verification of the protobuf-parser library (a Rust parser for Protocol
Buffers `.proto` sources) against its specification.

The development shallowly embeds:
- the tokenizer of `src/lexer.rs` at the lexeme level: the classification of
  identifier-shaped words into keyword / boolean / identifier tokens, the
  integer-literal conversion with its overflow behaviour, the string-literal
  pattern, and the line/column rendering of lexical errors;
- the tree data model of `src/ast.rs` (`Range`, `Comment`, `RpcStream`,
  `Field`, `Message`, `Service`, `Rpc`, ... together with their constructor
  functions `Comment::single_line`, `Comment::multi_line`, `RpcStream::new`);
- the grammar. The grammar source (`proto.lalrpop`) is not part of the
  source tree here, so the productions are modelled from the specification
  (each such definition is marked `Modelled from the spec:`); the fragment
  modelled covers the constructs the verified properties exercise.

Rust machine integers (`i64`) are modelled as `Int` with the explicit bounds
`I64MIN`/`I64MAX`; byte slices of ASCII source text are modelled as
`List Char` slices.
-/

namespace Proto

/-- The whitespace test used by Rust `str::trim`
(`char::is_whitespace`), on the ASCII range the sources handled here use:
space and U+0009 through U+000D (tab, line feed, vertical tab, form feed,
carriage return). -/
def isWsChar (c : Char) : Bool :=
  c = ' ' ∨ c = '\t' ∨ c = '\n' ∨ c = '\x0b' ∨ c = '\x0c' ∨ c = '\r'

/-- Remove leading and trailing whitespace, as Rust `str::trim`. -/
def trimChars (cs : List Char) : List Char :=
  ((cs.dropWhile isWsChar).reverse.dropWhile isWsChar).reverse

/-- Drop the last `n` characters (Rust slicing `[..len - n]`). -/
def dropRightChars (n : Nat) (cs : List Char) : List Char :=
  cs.take (cs.length - n)

/-- Token kinds produced by the lexer, embedding `enum Token` of
src/lexer.rs lines 81-201.  The comment, string and identifier variants
carry their text; `integer` carries the converted signed 64-bit value. -/
inductive Token where
  | singleLineComment (s : String)
  | multiLineComment (s : String)
  | eq
  | colon
  | semicolon
  | comma
  | period
  | openPth
  | closePth
  | openBracket
  | closeBracket
  | openBrace
  | closeBrace
  | openAngle
  | closeAngle
  | boolean (b : Bool)
  | integer (n : Int)
  | kwTo
  | kwMax
  | kwSyn
  | kwOption
  | kwPackage
  | kwImport
  | kwService
  | kwRpc
  | kwStream
  | kwReturns
  | kwMessage
  | kwOneOf
  | kwExtend
  | kwEnum
  | kwReserved
  | kwExtensions
  | kwOptional
  | kwRequired
  | kwRepeated
  | kwMap
  | strLit (s : String)
  | ident (s : String)
deriving DecidableEq

/-- The declared keywords with their token kinds, embedding the `#token`
attributes of src/lexer.rs lines 135-193 (in source order). -/
def keywordSpellings : List (String × Token) :=
  [("to", .kwTo), ("max", .kwMax), ("syntax", .kwSyn), ("option", .kwOption),
   ("package", .kwPackage), ("import", .kwImport), ("service", .kwService),
   ("rpc", .kwRpc), ("stream", .kwStream), ("returns", .kwReturns),
   ("message", .kwMessage), ("oneof", .kwOneOf), ("extend", .kwExtend),
   ("enum", .kwEnum), ("reserved", .kwReserved), ("extensions", .kwExtensions),
   ("optional", .kwOptional), ("required", .kwRequired),
   ("repeated", .kwRepeated), ("map", .kwMap)]

/-- Classification of an identifier-shaped word (`[a-zA-Z_][a-zA-Z_0-9]*`)
into a token.  Embeds the logos priority rules of src/lexer.rs: every
`#token` fixed word (the keywords, lines 135-193, and the boolean literals,
lines 127-128) takes priority over the generic identifier pattern, which is
declared with the lowest priority (line 199). -/
def classifyWord (w : String) : Token :=
  match keywordSpellings.find? (fun p => p.1 = w) with
  | some p => p.2
  | none =>
    if w = "true" then .boolean true
    else if w = "false" then .boolean false
    else .ident w

/-- Whether a token is the generic identifier token. -/
def isIdentTok (t : Token) : Bool :=
  match t with
  | .ident _ => true
  | _ => false

/-- Whether a token is the identifier token carrying exactly the text `s`. -/
def isIdentNamed (t : Token) (s : String) : Bool :=
  match t with
  | .ident s2 => s2 == s
  | _ => false

/-- Line number reported by `impl Display for LexicalError`
(src/lexer.rs lines 39-43): one plus the number of newline characters in
the source before the span start. -/
def lineOf (input : List Char) (start : Nat) : Nat :=
  ((input.take start).countP (fun c => c = '\n')) + 1

/-- Index of the last newline in a character list (Rust `str::rfind`). -/
def rfindNl (l : List Char) : Option Nat :=
  (l.reverse.findIdx? (fun c => c = '\n')).map (fun j => l.length - 1 - j)

/-- Column number reported by `impl Display for LexicalError`
(src/lexer.rs line 45): the span start minus the byte index of the last
newline before it, with `unwrap_or(0)` when no newline precedes. -/
def columnOf (input : List Char) (start : Nat) : Nat :=
  start - (rfindNl (input.take start)).getD 0

/-- Causes of integer conversion failure, embedding the fragment of Rust
`std::num::IntErrorKind` the lexer can produce and inspect. -/
inductive IntErrorKind where
  | posOverflow
  | negOverflow
  | otherKind
deriving DecidableEq

/-- Error categories of the lexer, embedding `enum LexicalErrorKind`
(src/lexer.rs lines 17-21). -/
inductive LexicalErrorKind where
  | invalidToken
  | invalidInteger (k : IntErrorKind)
deriving DecidableEq

/-- Qualitative cause text rendered for an `InvalidInteger` error by
`impl Display for LexicalError` (src/lexer.rs lines 61-64). -/
def overflowCauseText (k : IntErrorKind) : String :=
  match k with
  | .posOverflow => "overflow"
  | .negOverflow => "overflow"
  | .otherKind => "unknown"

/-- Largest `i64` value. -/
def I64MAX : Int := 9223372036854775807

/-- Smallest `i64` value. -/
def I64MIN : Int := -9223372036854775808

/-- Digit-by-digit conversion loop of Rust `i64::from_str_radix` /
`str::parse::<i64>` as called from the `Token::Integer` callbacks
(src/lexer.rs lines 131-132): multiply the accumulator by the radix and
add (or, for a negative literal, subtract) the next digit, with an `i64`
range check after each step; the first failing step aborts with a positive
or negative overflow error. -/
def parseI64Loop (neg : Bool) (r : Int) (acc : Int) : List Nat → Except IntErrorKind Int
  | [] => .ok acc
  | d :: ds =>
    let m := acc * r
    if I64MIN ≤ m ∧ m ≤ I64MAX then
      let a := if neg then m - (d : Int) else m + (d : Int)
      if I64MIN ≤ a ∧ a ≤ I64MAX then parseI64Loop neg r a ds
      else .error (if neg then .negOverflow else .posOverflow)
    else .error (if neg then .negOverflow else .posOverflow)

/-- Conversion of a decimal integer lexeme `-?[0-9]+` (sign stripped,
digits given as values) to a signed 64-bit value, as `str::parse::<i64>`
in src/lexer.rs line 131. -/
def parseI64Dec (neg : Bool) (ds : List Nat) : Except IntErrorKind Int :=
  parseI64Loop neg 10 0 ds

/-- Conversion of a hexadecimal integer lexeme `0x[0-9a-fA-F]{1,16}`
(digits given as values) to a signed 64-bit value, as
`i64::from_str_radix(.., 16)` in src/lexer.rs line 132. -/
def parseI64Hex (ds : List Nat) : Except IntErrorKind Int :=
  parseI64Loop false 16 0 ds

/-- The decimal integer token callback: a conversion failure becomes an
`InvalidInteger` lexical error (the `From<ParseIntError>` instance of
src/lexer.rs lines 23-27). -/
def integerTokenDec (neg : Bool) (ds : List Nat) : Except LexicalErrorKind Int :=
  match parseI64Dec neg ds with
  | .ok v => .ok v
  | .error k => .error (.invalidInteger k)

/-- The hexadecimal integer token callback; see `integerTokenDec`. -/
def integerTokenHex (ds : List Nat) : Except LexicalErrorKind Int :=
  match parseI64Hex ds with
  | .ok v => .ok v
  | .error k => .error (.invalidInteger k)

/-- Mathematical value of a digit string in radix `r`. -/
def natVal (r : Nat) (ds : List Nat) : Nat :=
  ds.foldl (fun a d => a * r + d) 0

/-- Longest-match scan for the tail of a string literal after its opening
quote `q`, embedding the logos regular expressions of src/lexer.rs lines
195-196: the content characters are any character other than the quote and
the newline, or an escaped quote `\q`; the scan ends at the closing quote.
Returns the matched tail (which includes the closing quote) and the
remaining input. -/
def strTail (q : Char) : List Char → Option (List Char × List Char)
  | [] => none
  | [c] => if c = q then some ([q], []) else none
  | c :: c2 :: cs2 =>
    if c = q then some ([q], c2 :: cs2)
    else if c = '\n' then none
    else if c = '\\' then
      if c2 = q then
        match strTail q cs2 with
        | some (w, r) => some ('\\' :: q :: w, r)
        | none => some (['\\', q], cs2)
      else
        match strTail q (c2 :: cs2) with
        | some (w, r) => some (c :: w, r)
        | none => none
    else
      match strTail q (c2 :: cs2) with
      | some (w, r) => some (c :: w, r)
      | none => none

/-- Strip the first and last character of a matched string lexeme,
embedding `string_from_lexer` (src/lexer.rs lines 72-75). -/
def stringFromLexer (slice : List Char) : List Char :=
  dropRightChars 1 (slice.drop 1)

/-- Lex one string literal starting at the head of the input: the head
must be the quote `q`, and the rest is scanned by `strTail`.  Returns the
full lexeme, the token content (the lexeme with its delimiters stripped)
and the remaining input. -/
def lexStringLit (q : Char) : List Char → Option (List Char × List Char × List Char)
  | c :: cs =>
    if c = q then
      match strTail q cs with
      | some (w, r) => some (q :: w, stringFromLexer (q :: w), r)
      | none => none
    else none
  | [] => none

/-- Comment kind markers, embedding `enum CommentType` (src/ast.rs
lines 168-172). -/
inductive CommentKind where
  | singleLine
  | multiLine
deriving DecidableEq

/-- A parsed comment carrying its verbatim source slice and its trimmed
text, embedding `struct Comment` (src/ast.rs lines 134-139). -/
structure Comment where
  kind : CommentKind
  source : String
  text : String
deriving DecidableEq

/-- Constructor for single-line comments, embedding `Comment::single_line`
(src/ast.rs lines 150-156): the text is the source with its first two
characters (the `//` delimiter) removed and then trimmed. -/
def Comment.single_line (source : String) : Comment :=
  { kind := .singleLine
    source := source
    text := String.mk (trimChars (source.data.drop 2)) }

/-- Constructor for multi-line comments, embedding `Comment::multi_line`
(src/ast.rs lines 158-164): the text is the source with its first two and
last two characters (the delimiters) removed and then trimmed. -/
def Comment.multi_line (source : String) : Comment :=
  { kind := .multiLine
    source := source
    text := String.mk (trimChars (dropRightChars 2 (source.data.drop 2))) }

/-- Reserved / extensions range, embedding `enum Range` (src/ast.rs lines
28-31): either a half-open interval (Rust `Range<i64>`, the `Default`
variant) or an open-ended interval (Rust `RangeFrom<i64>`, the `From`
variant). -/
inductive Range where
  | default (lo hi : Int)
  | fromStart (lo : Int)
deriving DecidableEq

/-- Option values, embedding `enum MapValue` (src/ast.rs lines 64-70);
the Rust `HashMap` payload of the `Map` variant is modelled as an
association list. -/
inductive MapValue where
  | boolean (b : Bool)
  | integer (i : Int)
  | identVal (s : String)
  | stringVal (s : String)
  | mapVal (m : List (String × MapValue))

/-- An option statement or inline option entry, embedding `struct Option`
(src/ast.rs lines 119-122); named `ProtoOption` to avoid clashing with the
ambient `Option` type. -/
structure ProtoOption where
  key : String
  value : MapValue

/-- Streaming mode of an RPC, embedding `enum RpcStream` (src/ast.rs
lines 299-304). -/
inductive RpcStream where
  | none
  | clientBound
  | serverBound
  | bidirectional
deriving DecidableEq

/-- Embeds `RpcStream::new` (src/ast.rs lines 307-314): builds the
streaming mode from the two boolean flags. -/
def RpcStream.new (server_bound : Bool) (client_bound : Bool) : RpcStream :=
  match server_bound, client_bound with
  | true, true => .bidirectional
  | true, false => .serverBound
  | false, true => .clientBound
  | false, false => .none

/-- RPC definition, embedding `struct Rpc` (src/ast.rs lines 277-284). -/
structure Rpc where
  ident : String
  request : String
  reply : String
  stream : RpcStream

/-- Field modifier keywords, embedding `enum FieldModifier` (src/ast.rs
lines 487-492). -/
inductive FieldModifier where
  | none
  | optional
  | required
  | repeated
deriving DecidableEq

/-- Field definition, embedding `struct Field` (src/ast.rs lines 410-416);
the type is a single uninterpreted string. -/
structure Field where
  modifier : FieldModifier
  type : String
  ident : String
  index : Int
  options : List ProtoOption

/-- Entries of a `oneof` block, embedding `enum OneOfEntry` (src/ast.rs
lines 464-469). -/
inductive OneOfEntry where
  | comment (c : Comment)
  | option (o : ProtoOption)
  | field (f : Field)

/-- A `oneof` definition, embedding `struct OneOf` (src/ast.rs
lines 448-451). -/
structure OneOf where
  ident : String
  entries : List OneOfEntry

/-- Entries of an `extend` block, embedding `enum ExtendEntry` (src/ast.rs
lines 512-515). -/
inductive ExtendEntry where
  | comment (c : Comment)
  | field (f : Field)

/-- An `extend` block, embedding `struct Extend` (src/ast.rs
lines 496-499). -/
structure Extend where
  type : String
  entries : List ExtendEntry

/-- An enum variant, embedding `struct EnumVariant` (src/ast.rs
lines 570-574). -/
structure EnumVariant where
  ident : String
  value : Int
  options : List ProtoOption

/-- Entries of an `enum` block, embedding `enum EnumEntry` (src/ast.rs
lines 545-549). -/
inductive EnumEntry where
  | comment (c : Comment)
  | option (o : ProtoOption)
  | variant (v : EnumVariant)

/-- An enum definition, embedding `struct Enum` (src/ast.rs
lines 529-532). -/
structure Enum where
  ident : String
  entries : List EnumEntry

mutual

/-- Message definition, embedding `struct Message` (src/ast.rs
lines 319-322). -/
inductive Message where
  | mk (ident : String) (entries : List MessageEntry)

/-- Entries of a `message` block, embedding `enum MessageEntry`
(src/ast.rs lines 342-356). -/
inductive MessageEntry where
  | comment (c : Comment)
  | option (o : ProtoOption)
  | field (f : Field)
  | oneOf (o : OneOf)
  | message (m : Message)
  | extendDecl (e : Extend)
  | enumDecl (e : Enum)
  | reservedIndices (rs : List Range)
  | reservedIdents (ss : List String)
  | extensions (rs : List Range)

end

/-- The identifier of a message. -/
def Message.ident : Message → String
  | .mk i _ => i

/-- The entries of a message. -/
def Message.entries : Message → List MessageEntry
  | .mk _ es => es

/-- Entries of a `service` block, embedding `enum ServiceEntry`
(src/ast.rs lines 254-259). -/
inductive ServiceEntry where
  | comment (c : Comment)
  | option (o : ProtoOption)
  | rpc (r : Rpc)

/-- Service definition, embedding `struct Service` (src/ast.rs
lines 238-241). -/
structure Service where
  ident : String
  entries : List ServiceEntry

/-- Top-level entries, embedding `enum RootEntry` (src/ast.rs
lines 183-193). -/
inductive RootEntry where
  | comment (c : Comment)
  | synDecl (s : String)
  | packageDecl (s : String)
  | importDecl (s : String)
  | optionDecl (o : ProtoOption)
  | service (s : Service)
  | message (m : Message)
  | extendDecl (e : Extend)
  | enumDecl (e : Enum)

/-- A full file tree, embedding `type Root` (src/ast.rs line 234). -/
abbrev Root := List RootEntry

/-- A spanned token `(token, start, end)`, as produced by `Lexer::next`
(src/lexer.rs lines 228-239). -/
abbrev STok := Token × Nat × Nat

/-- A spanned token with a dummy span, for properties that do not involve
source offsets. -/
def mkTok (t : Token) : STok := (t, 0, 0)

/-- The spelling of a keyword token, the inverse reading of the `#token`
attributes of src/lexer.rs lines 135-193; `none` on every non-keyword
token. -/
def keywordText (t : Token) : Option String :=
  match t with
  | .kwTo => some "to"
  | .kwMax => some "max"
  | .kwSyn => some "syntax"
  | .kwOption => some "option"
  | .kwPackage => some "package"
  | .kwImport => some "import"
  | .kwService => some "service"
  | .kwRpc => some "rpc"
  | .kwStream => some "stream"
  | .kwReturns => some "returns"
  | .kwMessage => some "message"
  | .kwOneOf => some "oneof"
  | .kwExtend => some "extend"
  | .kwEnum => some "enum"
  | .kwReserved => some "reserved"
  | .kwExtensions => some "extensions"
  | .kwOptional => some "optional"
  | .kwRequired => some "required"
  | .kwRepeated => some "repeated"
  | .kwMap => some "map"
  | _ => none

/-- Modelled from the spec: the grammar source `proto.lalrpop` is not in
the source tree; this is the name nonterminal of spec sections 4.2 and 9,
accepted wherever an identifier is contextually expected: the identifier
token, or any keyword token read back as its spelling.  Boolean, integer,
string, punctuation and comment tokens are not names. -/
def parseName (ts : List STok) : Option (String × List STok) :=
  match ts with
  | (.ident s, _, _) :: rest => some (s, rest)
  | (t, _, _) :: rest =>
    match keywordText t with
    | some s => some (s, rest)
    | none => none
  | [] => none

/-- Modelled from the spec: continuation of a dotted identifier chain
(`DottedIdent` of spec section 6): zero or more `'.' name` steps appended
to the accumulator with `.` separators. -/
def parseDottedAux (f : Nat) (acc : String) (ts : List STok) : Option (String × List STok) :=
  match ts with
  | (.period, _, _) :: rest =>
    (match f with
     | 0 => none
     | f' + 1 =>
       match parseName rest with
       | some (s, r2) => parseDottedAux f' (acc ++ "." ++ s) r2
       | none => none)
  | _ => some (acc, ts)

/-- Modelled from the spec: a dotted identifier chain `name ('.' name)*`. -/
def parseDotted (f : Nat) (ts : List STok) : Option (String × List STok) :=
  match parseName ts with
  | some (s, rest) => parseDottedAux f s rest
  | none => none

/-- The source slice between byte offsets `a` (inclusive) and `b`
(exclusive), for ASCII sources. -/
def strSlice (src : String) (a b : Nat) : String :=
  String.mk ((src.data.take b).drop a)

/-- Modelled from the spec: the field type production of spec section 4.2,
either a dotted identifier chain, or the literal `map<K,V>` form captured
verbatim as a single string: the slice of the source from the start of the
`map` token to the end of the closing `>` token, not decomposed into
key/value sub-types. -/
def parseFieldType (src : String) (f : Nat) (ts : List STok) : Option (String × List STok) :=
  match ts with
  | (.kwMap, ms, _) :: (.openAngle, _, _) :: rest =>
    (match parseDotted f rest with
     | some (_, (.comma, _, _) :: r2) =>
       (match parseDotted f r2 with
        | some (_, (.closeAngle, _, ae) :: r3) => some (strSlice src ms ae, r3)
        | _ => none)
     | _ => none)
  | _ => parseDotted f ts

/-- Modelled from the spec: one range expression of the reserved /
extensions grammar (spec sections 4.2 and 8): a bare integer `N` denotes
the half-open interval from `N` to `N + 1`; `N to M` the half-open
interval from `N` to `M + 1`; `N to max` the open-ended interval from
`N`. -/
def parseRangeItem (ts : List STok) : Option (Range × List STok) :=
  match ts with
  | (.integer n, _, _) :: (.kwTo, _, _) :: (.integer m, _, _) :: rest =>
    some (.default n (m + 1), rest)
  | (.integer n, _, _) :: (.kwTo, _, _) :: (.kwMax, _, _) :: rest =>
    some (.fromStart n, rest)
  | (.integer n, _, _) :: rest =>
    (match rest with
     | (.kwTo, _, _) :: _ => none
     | _ => some (.default n (n + 1), rest))
  | _ => none

/-- Modelled from the spec: a comma-separated list of range expressions. -/
def parseRangeListAux (f : Nat) (acc : List Range) (ts : List STok) : Option (List Range × List STok) :=
  match parseRangeItem ts with
  | some (rg, rest) =>
    (match rest with
     | (.comma, _, _) :: rest2 =>
       (match f with
        | 0 => none
        | f' + 1 => parseRangeListAux f' (acc ++ [rg]) rest2)
     | _ => some (acc ++ [rg], rest))
  | none => none

/-- Modelled from the spec: a comma-separated list of quoted string
identifiers (the second arm of the reserved statement). -/
def parseStringListAux (f : Nat) (acc : List String) (ts : List STok) : Option (List String × List STok) :=
  match ts with
  | (.strLit s, _, _) :: rest =>
    (match rest with
     | (.comma, _, _) :: rest2 =>
       (match f with
        | 0 => none
        | f' + 1 => parseStringListAux f' (acc ++ [s]) rest2)
     | _ => some (acc ++ [s], rest))
  | _ => none

/-- Modelled from the spec: the tail of a reserved statement after the
`reserved` keyword, distinguished by its first token: a range list ended
by a semicolon gives a reserved-index-ranges entry, a string list ended by
a semicolon gives a reserved-identifiers entry. -/
def parseReservedTail (f : Nat) (ts : List STok) : Option (MessageEntry × List STok) :=
  match ts with
  | (.integer _, _, _) :: _ =>
    (match parseRangeListAux f [] ts with
     | some (rs, (.semicolon, _, _) :: r2) => some (.reservedIndices rs, r2)
     | _ => none)
  | (.strLit _, _, _) :: _ =>
    (match parseStringListAux f [] ts with
     | some (ss, (.semicolon, _, _) :: r2) => some (.reservedIdents ss, r2)
     | _ => none)
  | _ => none

/-- Modelled from the spec: the tail of an extensions statement after the
`extensions` keyword: the same range-list grammar as reserved indices. -/
def parseExtensionsTail (f : Nat) (ts : List STok) : Option (MessageEntry × List STok) :=
  match ts with
  | (.integer _, _, _) :: _ =>
    (match parseRangeListAux f [] ts with
     | some (rs, (.semicolon, _, _) :: r2) => some (.extensions rs, r2)
     | _ => none)
  | _ => none

/-- Modelled from the spec: the field declaration core
`type name '=' integer ';'` with a given modifier (bracketed option lists
are outside the modelled fragment and left empty). -/
def parseFieldCore (src : String) (f : Nat) (modifier : FieldModifier) (ts : List STok) : Option (Field × List STok) :=
  match parseFieldType src f ts with
  | some (ty, ts2) =>
    (match parseName ts2 with
     | some (nm, (.eq, _, _) :: (.integer i, _, _) :: (.semicolon, _, _) :: ts3) =>
       some ({ modifier := modifier, type := ty, ident := nm, index := i, options := [] }, ts3)
     | _ => none)
  | none => none

/-- Modelled from the spec: a field declaration with an optional leading
modifier keyword.  When a modifier keyword is present but the rest does
not complete a field, the keyword is re-read as the field type (spec
section 4.2: every keyword is acceptable wherever a type name is
expected). -/
def parseField (src : String) (f : Nat) (ts : List STok) : Option (Field × List STok) :=
  match ts with
  | (.kwOptional, _, _) :: r =>
    (match parseFieldCore src f .optional r with
     | some x => some x
     | none => parseFieldCore src f .none ts)
  | (.kwRequired, _, _) :: r =>
    (match parseFieldCore src f .required r with
     | some x => some x
     | none => parseFieldCore src f .none ts)
  | (.kwRepeated, _, _) :: r =>
    (match parseFieldCore src f .repeated r with
     | some x => some x
     | none => parseFieldCore src f .none ts)
  | _ => parseFieldCore src f .none ts

/-- Modelled from the spec: the reply part of an RPC declaration
`stream? type ')' (';' | '{' '}')`; the two collected flags are combined
by `RpcStream.new` (src/ast.rs lines 307-314): the first is the
request-streams flag, the second the reply-streams flag. -/
def parseRpcAfterRep (f : Nat) (nm req : String) (s1 s2 : Bool) (ts : List STok) : Option (Rpc × List STok) :=
  match parseDotted f ts with
  | some (rep, (.closePth, _, _) :: r6) =>
    (match r6 with
     | (.semicolon, _, _) :: r7 =>
       some ({ ident := nm, request := req, reply := rep, stream := RpcStream.new s1 s2 }, r7)
     | (.openBrace, _, _) :: (.closeBrace, _, _) :: r7 =>
       some ({ ident := nm, request := req, reply := rep, stream := RpcStream.new s1 s2 }, r7)
     | _ => none)
  | _ => none

/-- Modelled from the spec: the request part of an RPC declaration from
the request type on: `type ')' returns '(' stream? ...`; the `stream`
keyword before the reply type sets the second flag. -/
def parseRpcAfterReq (f : Nat) (nm : String) (s1 : Bool) (ts : List STok) : Option (Rpc × List STok) :=
  match parseDotted f ts with
  | some (req, (.closePth, _, _) :: (.kwReturns, _, _) :: (.openPth, _, _) :: r4) =>
    (match r4 with
     | (.kwStream, _, _) :: rr => parseRpcAfterRep f nm req s1 true rr
     | _ => parseRpcAfterRep f nm req s1 false r4)
  | _ => none

/-- Modelled from the spec: the RPC declaration production
`rpc name '(' stream? type ')' returns '(' stream? type ')' (';' | '{' '}')`
of spec section 4.2: the `stream` keyword before the request type sets the
first flag passed to `RpcStream.new` (request streams to server), the one
before the reply type sets the second flag (server streams to client). -/
def parseRpc (f : Nat) (ts : List STok) : Option (Rpc × List STok) :=
  match ts with
  | (.kwRpc, _, _) :: rest =>
    (match parseName rest with
     | some (nm, (.openPth, _, _) :: r2) =>
       (match r2 with
        | (.kwStream, _, _) :: rr => parseRpcAfterReq f nm true rr
        | _ => parseRpcAfterReq f nm false r2)
     | _ => none)
  | _ => none

/-- Modelled from the spec: the entry list of a `service` block: comments
and RPC declarations, in source order, until the closing brace. -/
def parseServiceEntriesAux (f : Nat) (ts : List STok) : Option (List ServiceEntry × List STok) :=
  match ts with
  | [] => some ([], [])
  | (.closeBrace, _, _) :: _ => some ([], ts)
  | (.singleLineComment s, _, _) :: rest =>
    (match f with
     | 0 => none
     | f' + 1 =>
       (match parseServiceEntriesAux f' rest with
        | some (es, r) => some (.comment (Comment.single_line s) :: es, r)
        | none => none))
  | (.multiLineComment s, _, _) :: rest =>
    (match f with
     | 0 => none
     | f' + 1 =>
       (match parseServiceEntriesAux f' rest with
        | some (es, r) => some (.comment (Comment.multi_line s) :: es, r)
        | none => none))
  | _ =>
    (match parseRpc f ts with
     | some (rp, rest) =>
       (match f with
        | 0 => none
        | f' + 1 =>
          (match parseServiceEntriesAux f' rest with
           | some (es, r) => some (.rpc rp :: es, r)
           | none => none))
     | none => none)

/-- Modelled from the spec: a `service` block
`service name '{' entries '}'`. -/
def parseService (f : Nat) (ts : List STok) : Option (Service × List STok) :=
  match ts with
  | (.kwService, _, _) :: rest =>
    (match parseName rest with
     | some (nm, (.openBrace, _, _) :: r2) =>
       (match parseServiceEntriesAux f r2 with
        | some (es, (.closeBrace, _, _) :: r3) => some ({ ident := nm, entries := es }, r3)
        | _ => none)
     | _ => none)
  | _ => none

mutual

/-- Modelled from the spec: one entry of a `message` block (the fragment
covering comments, reserved and extensions statements, nested messages and
fields).  A comment token becomes a comment entry where it stands.  The
alternatives are tried in order, falling back to a field declaration, so
that every keyword remains usable in identifier and type positions
(spec section 4.2). -/
def parseMessageEntry (src : String) (f : Nat) (ts : List STok) : Option (MessageEntry × List STok) :=
  match ts with
  | (.singleLineComment s, _, _) :: rest => some (.comment (Comment.single_line s), rest)
  | (.multiLineComment s, _, _) :: rest => some (.comment (Comment.multi_line s), rest)
  | (.kwReserved, _, _) :: rest =>
    (match parseReservedTail f rest with
     | some (e, r) => some (e, r)
     | none =>
       (match parseField src f ts with
        | some (fd, r) => some (.field fd, r)
        | none => none))
  | (.kwExtensions, _, _) :: rest =>
    (match parseExtensionsTail f rest with
     | some (e, r) => some (e, r)
     | none =>
       (match parseField src f ts with
        | some (fd, r) => some (.field fd, r)
        | none => none))
  | (.kwMessage, _, _) :: _ =>
    (match f with
     | 0 =>
       (match parseField src f ts with
        | some (fd, r) => some (.field fd, r)
        | none => none)
     | f' + 1 =>
       (match parseMessage src f' ts with
        | some (m, rest) => some (.message m, rest)
        | none =>
          (match parseField src f ts with
           | some (fd, r) => some (.field fd, r)
           | none => none)))
  | _ =>
    (match parseField src f ts with
     | some (fd, r) => some (.field fd, r)
     | none => none)

/-- Modelled from the spec: the entry list of a `message` block, in source
order, until the closing brace (or the end of input, left for the
enclosing production to reject). -/
def parseMessageEntries (src : String) (f : Nat) (ts : List STok) : Option (List MessageEntry × List STok) :=
  match ts with
  | [] => some ([], [])
  | (.closeBrace, _, _) :: _ => some ([], ts)
  | _ =>
    (match f with
     | 0 => none
     | f' + 1 =>
       (match parseMessageEntry src f' ts with
        | some (e, rest) =>
          (match parseMessageEntries src f' rest with
           | some (es, r2) => some (e :: es, r2)
           | none => none)
        | none => none))

/-- Modelled from the spec: a `message` block
`message name '{' entries '}'` (spec section 4.2); the name position
accepts any keyword. -/
def parseMessage (src : String) (f : Nat) (ts : List STok) : Option (Message × List STok) :=
  match ts with
  | (.kwMessage, _, _) :: rest =>
    (match parseName rest with
     | some (nm, (.openBrace, _, _) :: r2) =>
       (match f with
        | 0 => none
        | f' + 1 =>
          (match parseMessageEntries src f' r2 with
           | some (es, (.closeBrace, _, _) :: r3) => some (.mk nm es, r3)
           | _ => none))
     | _ => none)
  | _ => none

end

/-- Modelled from the spec: the top-level entry list (the fragment
covering comments, the `syntax = <string> ;` declaration, message blocks
and service blocks), in source order, until the input is exhausted. -/
def parseRootEntries (src : String) (f : Nat) (ts : List STok) : Option (List RootEntry × List STok) :=
  match ts with
  | [] => some ([], [])
  | (.singleLineComment s, _, _) :: rest =>
    (match f with
     | 0 => none
     | f' + 1 =>
       (match parseRootEntries src f' rest with
        | some (es, r) => some (.comment (Comment.single_line s) :: es, r)
        | none => none))
  | (.multiLineComment s, _, _) :: rest =>
    (match f with
     | 0 => none
     | f' + 1 =>
       (match parseRootEntries src f' rest with
        | some (es, r) => some (.comment (Comment.multi_line s) :: es, r)
        | none => none))
  | (.kwSyn, _, _) :: (.eq, _, _) :: (.strLit s, _, _) :: (.semicolon, _, _) :: rest =>
    (match f with
     | 0 => none
     | f' + 1 =>
       (match parseRootEntries src f' rest with
        | some (es, r) => some (.synDecl s :: es, r)
        | none => none))
  | (.kwMessage, _, _) :: _ =>
    (match f with
     | 0 => none
     | f' + 1 =>
       (match parseMessage src f' ts with
        | some (m, rest) =>
          (match parseRootEntries src f' rest with
           | some (es, r) => some (.message m :: es, r)
           | none => none)
        | none => none))
  | (.kwService, _, _) :: _ =>
    (match f with
     | 0 => none
     | f' + 1 =>
       (match parseService f' ts with
        | some (sv, rest) =>
          (match parseRootEntries src f' rest with
           | some (es, r) => some (.service sv :: es, r)
           | none => none)
        | none => none))
  | _ => none

/-- Modelled from the spec: parse a whole file: the top-level entry list
must consume every token (spec section 4.2: extra trailing input is an
error). -/
def parseRoot (src : String) (f : Nat) (ts : List STok) : Option Root :=
  match parseRootEntries src f ts with
  | some (es, []) => some es
  | _ => none

/-- The comment entries a token stream will contribute, in order: each
comment token read back through the `Comment` constructors of
src/ast.rs. -/
def commentSrcs (ts : List STok) : List Comment :=
  match ts with
  | [] => []
  | (.singleLineComment s, _, _) :: rest => Comment.single_line s :: commentSrcs rest
  | (.multiLineComment s, _, _) :: rest => Comment.multi_line s :: commentSrcs rest
  | _ :: rest => commentSrcs rest

/-- Whether a token is a comment token. -/
def isCommentTok (t : Token) : Bool :=
  match t with
  | .singleLineComment _ => true
  | .multiLineComment _ => true
  | _ => false

/-- Comments of a `oneof` block, in order. -/
def oneOfComments (o : OneOf) : List Comment :=
  o.entries.foldr (fun e acc =>
    match e with
    | .comment c => c :: acc
    | _ => acc) []

/-- Comments of an `extend` block, in order. -/
def extendComments (e : Extend) : List Comment :=
  e.entries.foldr (fun en acc =>
    match en with
    | .comment c => c :: acc
    | _ => acc) []

/-- Comments of an `enum` block, in order. -/
def enumComments (e : Enum) : List Comment :=
  e.entries.foldr (fun en acc =>
    match en with
    | .comment c => c :: acc
    | _ => acc) []

/-- Comments of a service entry list, in order. -/
def serviceEntriesComments (es : List ServiceEntry) : List Comment :=
  match es with
  | [] => []
  | .comment c :: es => c :: serviceEntriesComments es
  | _ :: es => serviceEntriesComments es

/-- Comments of a `service` block, in order. -/
def serviceComments (s : Service) : List Comment :=
  serviceEntriesComments s.entries

mutual

/-- All comments of a message, in pre-order (that is, source order). -/
def msgComments : Message → List Comment
  | .mk _ es => msgEntriesComments es

/-- All comments of a message entry list, in order. -/
def msgEntriesComments : List MessageEntry → List Comment
  | [] => []
  | e :: es => msgEntryComments e ++ msgEntriesComments es

/-- All comments of one message entry, including those of nested
blocks. -/
def msgEntryComments : MessageEntry → List Comment
  | .comment c => [c]
  | .option _ => []
  | .field _ => []
  | .oneOf o => oneOfComments o
  | .message m => msgComments m
  | .extendDecl e => extendComments e
  | .enumDecl e => enumComments e
  | .reservedIndices _ => []
  | .reservedIdents _ => []
  | .extensions _ => []

end

/-- All comments of one top-level entry, including those of nested
blocks. -/
def rootEntryComments : RootEntry → List Comment
  | .comment c => [c]
  | .synDecl _ => []
  | .packageDecl _ => []
  | .importDecl _ => []
  | .optionDecl _ => []
  | .service s => serviceComments s
  | .message m => msgComments m
  | .extendDecl e => extendComments e
  | .enumDecl e => enumComments e

/-- All comments of a parsed file, in source order. -/
def rootComments (r : Root) : List Comment :=
  match r with
  | [] => []
  | e :: es => rootEntryComments e ++ rootComments es

/-- One keyword's acceptability as a name, checked through the modelled
grammar: used as a message name, as a nested message name, as a field
type, and as a dotted field-type segment, each parse yielding the
keyword's spelling; and the tokenizer classifies the spelled word as the
keyword token itself (never as an identifier token). -/
def checkKw (p : String × Token) : Bool :=
  let s := p.1
  let t := p.2
  (classifyWord s == t) &&
  (match parseMessage "" 10 [mkTok .kwMessage, mkTok t, mkTok .openBrace, mkTok .closeBrace] with
   | some (.mk nm es, rest) => nm == s && es.isEmpty && rest.isEmpty
   | none => false) &&
  (match parseMessageEntry "" 10 [mkTok .kwMessage, mkTok t, mkTok .openBrace, mkTok .closeBrace] with
   | some (.message (.mk nm es), rest) => nm == s && es.isEmpty && rest.isEmpty
   | _ => false) &&
  (match parseMessageEntry "" 10 [mkTok t, mkTok (.ident "x"), mkTok .eq, mkTok (.integer 1), mkTok .semicolon] with
   | some (.field fd, rest) => fd.type == s && fd.ident == "x" && rest.isEmpty
   | _ => false) &&
  (match parseMessageEntry "" 10 [mkTok t, mkTok .period, mkTok t, mkTok (.ident "x"), mkTok .eq, mkTok (.integer 1), mkTok .semicolon] with
   | some (.field fd, rest) => fd.type == (s ++ "." ++ s) && fd.ident == "x" && rest.isEmpty
   | _ => false)

/-- A token stream exercising comment retention: comments at top level, a
comment as the very last token inside a message block, a comment inside a
nested message and inside a service block, and a comment as the very last
token of the file. -/
def c6Toks : List STok :=
  [mkTok (.singleLineComment "// top"),
   mkTok .kwSyn, mkTok .eq, mkTok (.strLit "proto3"), mkTok .semicolon,
   mkTok (.multiLineComment "/* before message */"),
   mkTok .kwMessage, mkTok (.ident "M"), mkTok .openBrace,
   mkTok (.singleLineComment "// in message"),
   mkTok (.ident "bool"), mkTok (.ident "var"), mkTok .eq, mkTok (.integer 1), mkTok .semicolon,
   mkTok .kwMessage, mkTok (.ident "Inner"), mkTok .openBrace,
   mkTok (.singleLineComment "// in inner"),
   mkTok .closeBrace,
   mkTok (.singleLineComment "// last in message"),
   mkTok .closeBrace,
   mkTok .kwService, mkTok (.ident "S"), mkTok .openBrace,
   mkTok (.singleLineComment "// in service"),
   mkTok .kwRpc, mkTok (.ident "R"), mkTok .openPth, mkTok (.ident "A"),
   mkTok .closePth, mkTok .kwReturns, mkTok .openPth, mkTok (.ident "B"),
   mkTok .closePth, mkTok .semicolon,
   mkTok .closeBrace,
   mkTok (.singleLineComment "// end of file")]

def accValInt (r acc : Int) (ds : List Nat) : Int :=
  match ds with
  | [] => acc
  | d :: ds => accValInt r (acc * r + (d : Int)) ds

def accValNegInt (r acc : Int) (ds : List Nat) : Int :=
  match ds with
  | [] => acc
  | d :: ds => accValNegInt r (acc * r - (d : Int)) ds

theorem dropWhile_head_not {α : Type} (p : α → Bool) (l : List α) :
    ((l.dropWhile p).head?.all fun c => !p c) = true := by
  induction l with
  | nil => rfl
  | cons c l ih =>
    by_cases h : p c
    · rw [show (c :: l).dropWhile p = l.dropWhile p from by simp [List.dropWhile, h]]
      exact ih
    · simp [List.dropWhile, h]

theorem dropWhile_suffix_ex {α : Type} (p : α → Bool) (l : List α) :
    ∃ t, l = t ++ l.dropWhile p := by
  induction l with
  | nil => exact ⟨[], rfl⟩
  | cons c l ih =>
    by_cases h : p c
    · obtain ⟨t, ht⟩ := ih
      exact ⟨c :: t, by simp [List.dropWhile, h, ← ht]⟩
    · exact ⟨[], by simp [List.dropWhile, h]⟩

theorem trimChars_head_not_ws (s : List Char) :
    ((trimChars s).head?.all fun c => !isWsChar c) = true := by
  unfold trimChars
  set L := s.dropWhile isWsChar with hL
  obtain ⟨t, ht⟩ := dropWhile_suffix_ex isWsChar L.reverse
  set B := L.reverse.dropWhile isWsChar with hB
  match hBr : B.reverse with
  | [] => simp
  | x :: xs =>
    have hLx : L = x :: (xs ++ t.reverse) := by
      have : L = B.reverse ++ t.reverse := by
        have := congrArg List.reverse ht
        simpa [List.reverse_append] using this
      rw [this, hBr]; simp
    have hh := dropWhile_head_not isWsChar s
    rw [← hL, hLx] at hh
    simpa [hBr] using hh

theorem trimChars_getLast_not_ws (s : List Char) :
    ((trimChars s).getLast?.all fun c => !isWsChar c) = true := by
  unfold trimChars
  rw [List.getLast?_reverse]
  exact dropWhile_head_not isWsChar _

/-- C9: the delimiter-trimmed text view of a parsed comment additionally
removes surrounding whitespace: for a single-line comment the text is the
raw slice minus the leading `//`, whitespace-trimmed; for a multi-line
comment it is the raw slice minus the leading `/*` and trailing `*/`,
whitespace-trimmed.  The raw source is kept verbatim, and the trimmed text
has no leading or trailing whitespace. -/
theorem claim_c9_comment_trimming (s : List Char) :
    (Comment.single_line (String.mk ('/' :: '/' :: s))).text = String.mk (trimChars s)
    ∧ (Comment.multi_line (String.mk ('/' :: '*' :: (s ++ ['*', '/'])))).text = String.mk (trimChars s)
    ∧ (Comment.single_line (String.mk ('/' :: '/' :: s))).source = String.mk ('/' :: '/' :: s)
    ∧ ((trimChars s).head?.all fun c => !isWsChar c) = true
    ∧ ((trimChars s).getLast?.all fun c => !isWsChar c) = true := by
  refine ⟨rfl, ?_, rfl, trimChars_head_not_ws s, trimChars_getLast_not_ws s⟩
  have hdrop : dropRightChars 2 (s ++ ['*', '/']) = s := by
    unfold dropRightChars
    rw [List.length_append]
    have h2 : s.length + ['*', '/'].length - 2 = s.length := by simp
    rw [h2]
    exact List.take_left s ['*', '/']
  simp [Comment.multi_line, hdrop]

/-- C3: the display rendering of lexical errors computes the line as one
plus the number of newlines before the span start, which is 1-based; but
the column is the span start minus the `rfind` result defaulted to zero,
which is 1-based only on lines after the first: at the very start of the
source the rendered column is 0, not 1, contradicting the claimed 1-based
column convention (an error on line 2 is rendered with 1-based column 1,
showing the first line is the odd one out). -/
theorem claim_c3_column_defect :
    lineOf ['$'] 0 = 1 ∧ columnOf ['$'] 0 = 0
    ∧ lineOf ['a', 'b', '$'] 2 = 1 ∧ columnOf ['a', 'b', '$'] 2 = 2
    ∧ lineOf ['a', '\n', '$'] 2 = 2 ∧ columnOf ['a', '\n', '$'] 2 = 1 := by
  refine ⟨rfl, rfl, rfl, ?_, rfl, ?_⟩ <;> rfl

theorem classifyWord_ident_facts (w s : String) (h : classifyWord w = .ident s) :
    s = w ∧ w ≠ "true" ∧ w ≠ "false" := by
  unfold classifyWord at h
  cases hf : keywordSpellings.find? (fun p => p.1 = w) with
  | some p =>
    try rw [hf] at h
    replace h : p.2 = Token.ident s := h
    have hmem := List.mem_of_find?_eq_some hf
    have hall : keywordSpellings.all (fun q => !isIdentTok q.2) = true := by rfl
    have hp := List.all_eq_true.mp hall p hmem
    rw [h] at hp
    exact absurd hp (by simp [isIdentTok])
  | none =>
    try rw [hf] at h
    replace h : (if w = "true" then Token.boolean true
        else if w = "false" then Token.boolean false else Token.ident w) = Token.ident s := h
    by_cases h1 : w = "true"
    · rw [if_pos h1] at h; exact Token.noConfusion h
    · rw [if_neg h1] at h
      by_cases h2 : w = "false"
      · rw [if_pos h2] at h; exact Token.noConfusion h
      · rw [if_neg h2] at h
        injection h with h3
        exact ⟨h3.symm, h1, h2⟩

/-- C10: the words `true` and `false` always classify to the boolean
token (the fixed-word patterns take priority over the identifier pattern,
which is declared with the lowest priority), so no tokenization of any
word yields an identifier token named `true` or `false`; and the name
nonterminal of the grammar rejects boolean tokens, so neither word is
available as an identifier. -/
theorem claim_c10_boolean_priority :
    classifyWord "true" = Token.boolean true
    ∧ classifyWord "false" = Token.boolean false
    ∧ (∀ w : String, isIdentNamed (classifyWord w) "true" = false
        ∧ isIdentNamed (classifyWord w) "false" = false)
    ∧ (∀ (b : Bool) (a c : Nat) (rest : List STok),
        parseName ((Token.boolean b, a, c) :: rest) = none) := by
  refine ⟨rfl, rfl, ?_, ?_⟩
  · intro w
    cases hc : classifyWord w <;> simp only [isIdentNamed, and_self]
    case ident s =>
      obtain ⟨rfl, h1, h2⟩ := classifyWord_ident_facts w _ hc
      simp [h1, h2]
  · intro b a c rest
    rfl

/-- C1: every range expression of a reserved-indices or extensions
statement converts inclusive surface bounds to the half-open internal
representation: a bare integer `N` becomes the interval from `N` to
`N + 1`; `N to M` the interval from `N` to `M + 1`; `N to max` an
open-ended range from `N`; so for every non-open range the internal upper
bound is the written inclusive upper bound plus one. -/
theorem claim_c1_range_conversion :
    (∀ (n m : Int) (rest : List STok),
       parseRangeItem (mkTok (.integer n) :: mkTok .kwTo :: mkTok (.integer m) :: rest)
         = some (.default n (m + 1), rest))
    ∧ (∀ (n : Int) (rest : List STok),
       parseRangeItem (mkTok (.integer n) :: mkTok .kwTo :: mkTok .kwMax :: rest)
         = some (.fromStart n, rest))
    ∧ (∀ n : Int, parseRangeItem [mkTok (.integer n)] = some (.default n (n + 1), []))
    ∧ (∀ (n : Int) (rest : List STok),
       parseRangeItem (mkTok (.integer n) :: mkTok .comma :: rest)
         = some (.default n (n + 1), mkTok .comma :: rest))
    ∧ (∀ (src : String) (f : Nat) (n m : Int),
       parseMessageEntry src f
           [mkTok .kwReserved, mkTok (.integer n), mkTok .kwTo, mkTok (.integer m), mkTok .semicolon]
         = some (.reservedIndices [.default n (m + 1)], []))
    ∧ (∀ (src : String) (f : Nat) (n m : Int),
       parseMessageEntry src f
           [mkTok .kwExtensions, mkTok (.integer n), mkTok .kwTo, mkTok (.integer m), mkTok .semicolon]
         = some (.extensions [.default n (m + 1)], []))
    ∧ (∀ (src : String) (f : Nat) (n : Int),
       parseMessageEntry src f
           [mkTok .kwExtensions, mkTok (.integer n), mkTok .kwTo, mkTok .kwMax, mkTok .semicolon]
         = some (.extensions [.fromStart n], [])) := by
  refine ⟨fun n m rest => rfl, fun n rest => rfl, fun n => rfl, fun n rest => rfl, ?_, ?_, ?_⟩ <;>
    (intro src f n
     try intro m
     rw [parseMessageEntry.eq_def]
     simp [parseReservedTail, parseExtensionsTail, parseRangeListAux, parseRangeItem, mkTok])

/-- C4: the four RPC declaration forms parse to the four distinct
streaming modes: no `stream` keyword gives mode none, `stream` before the
request type gives server-bound, before the reply type client-bound, and
both give bidirectional; the flags are combined by `RpcStream.new`, which
maps the pairs (false,false), (true,false), (false,true), (true,true) to
none, server-bound, client-bound and bidirectional respectively. -/
theorem claim_c4_rpc_streaming :
    (∀ (f : Nat) (nm req rep : String) (rest : List STok),
       parseRpc f (mkTok .kwRpc :: mkTok (.ident nm) :: mkTok .openPth ::
           mkTok (.ident req) :: mkTok .closePth :: mkTok .kwReturns :: mkTok .openPth ::
           mkTok (.ident rep) :: mkTok .closePth :: mkTok .semicolon :: rest)
         = some ({ ident := nm, request := req, reply := rep, stream := .none }, rest))
    ∧ (∀ (f : Nat) (nm req rep : String) (rest : List STok),
       parseRpc f (mkTok .kwRpc :: mkTok (.ident nm) :: mkTok .openPth :: mkTok .kwStream ::
           mkTok (.ident req) :: mkTok .closePth :: mkTok .kwReturns :: mkTok .openPth ::
           mkTok (.ident rep) :: mkTok .closePth :: mkTok .semicolon :: rest)
         = some ({ ident := nm, request := req, reply := rep, stream := .serverBound }, rest))
    ∧ (∀ (f : Nat) (nm req rep : String) (rest : List STok),
       parseRpc f (mkTok .kwRpc :: mkTok (.ident nm) :: mkTok .openPth ::
           mkTok (.ident req) :: mkTok .closePth :: mkTok .kwReturns :: mkTok .openPth :: mkTok .kwStream ::
           mkTok (.ident rep) :: mkTok .closePth :: mkTok .semicolon :: rest)
         = some ({ ident := nm, request := req, reply := rep, stream := .clientBound }, rest))
    ∧ (∀ (f : Nat) (nm req rep : String) (rest : List STok),
       parseRpc f (mkTok .kwRpc :: mkTok (.ident nm) :: mkTok .openPth :: mkTok .kwStream ::
           mkTok (.ident req) :: mkTok .closePth :: mkTok .kwReturns :: mkTok .openPth :: mkTok .kwStream ::
           mkTok (.ident rep) :: mkTok .closePth :: mkTok .semicolon :: rest)
         = some ({ ident := nm, request := req, reply := rep, stream := .bidirectional }, rest))
    ∧ RpcStream.new false false = .none
    ∧ RpcStream.new true false = .serverBound
    ∧ RpcStream.new false true = .clientBound
    ∧ RpcStream.new true true = .bidirectional := by
  refine ⟨?_, ?_, ?_, ?_, rfl, rfl, rfl, rfl⟩ <;>
    (intro f nm req rep rest
     simp [parseRpc, parseRpcAfterReq, parseRpcAfterRep, parseName, parseDotted,
           parseDottedAux, RpcStream.new, mkTok])

/-- C7: a field type written with the map form is parsed to a single
uninterpreted string equal to the exact source text from `map` through the
closing angle bracket inclusive; the key and value sub-types are not
decomposed into separate structures. -/
theorem claim_c7_map_type_verbatim :
    (∀ (src : String) (f : Nat) (ms mb oa ob ka kb ca cb va vb aa ae : Nat)
       (k v : String) (rest : List STok),
       parseFieldType src f ((.kwMap, ms, mb) :: (.openAngle, oa, ob) :: (.ident k, ka, kb) ::
           (.comma, ca, cb) :: (.ident v, va, vb) :: (.closeAngle, aa, ae) :: rest)
         = some (strSlice src ms ae, rest))
    ∧ parseMessageEntry "map<string, string> fifth = 5;" 7
        [(.kwMap, 0, 3), (.openAngle, 3, 4), (.ident "string", 4, 10), (.comma, 10, 11),
         (.ident "string", 12, 18), (.closeAngle, 18, 19), (.ident "fifth", 20, 25),
         (.eq, 26, 27), (.integer 5, 28, 29), (.semicolon, 29, 30)]
      = some (.field { modifier := .none, type := "map<string, string>", ident := "fifth",
                       index := 5, options := [] }, []) := by
  constructor
  · intro src f ms mb oa ob ka kb ca cb va vb aa ae k v rest
    simp [parseFieldType, parseDotted, parseName, parseDottedAux]
  · rfl

theorem accValInt_cast (r : Nat) (ds : List Nat) :
    ∀ a : Nat, accValInt (r : Int) (a : Int) ds = ((List.foldl (fun x d => x * r + d) a ds : Nat) : Int) := by
  induction ds with
  | nil => intro a; rfl
  | cons d ds ih =>
    intro a
    have h1 : ((a : Int) * (r : Int) + (d : Int)) = (((a * r + d : Nat)) : Int) := by push_cast; ring
    show accValInt (r : Int) ((a : Int) * (r : Int) + (d : Int)) ds = _
    rw [h1, ih]
    rfl

theorem accValInt_ge (r : Int) (hr : 1 ≤ r) (ds : List Nat) :
    ∀ acc : Int, 0 ≤ acc → acc ≤ accValInt r acc ds := by
  induction ds with
  | nil => intro acc _; exact le_refl acc
  | cons d ds ih =>
    intro acc hacc
    have h1 : acc ≤ acc * r + (d : Int) := by nlinarith [Int.natCast_nonneg d]
    have h2 : (0 : Int) ≤ acc * r + (d : Int) := by nlinarith [Int.natCast_nonneg d]
    calc acc ≤ acc * r + (d : Int) := h1
      _ ≤ accValInt r (acc * r + (d : Int)) ds := ih _ h2
      _ = accValInt r acc (d :: ds) := rfl

theorem accValNegInt_le (r : Int) (hr : 1 ≤ r) (ds : List Nat) :
    ∀ acc : Int, acc ≤ 0 → accValNegInt r acc ds ≤ acc := by
  induction ds with
  | nil => intro acc _; exact le_refl acc
  | cons d ds ih =>
    intro acc hacc
    have h1 : acc * r - (d : Int) ≤ acc := by nlinarith [Int.natCast_nonneg d]
    have h2 : acc * r - (d : Int) ≤ 0 := by nlinarith [Int.natCast_nonneg d]
    calc accValNegInt r acc (d :: ds) = accValNegInt r (acc * r - (d : Int)) ds := rfl
      _ ≤ acc * r - (d : Int) := ih _ h2
      _ ≤ acc := h1

theorem parseI64Loop_pos (r : Int) (hr : 1 ≤ r) (ds : List Nat) :
    ∀ acc : Int, 0 ≤ acc → acc ≤ I64MAX →
      parseI64Loop false r acc ds =
        if accValInt r acc ds ≤ I64MAX
        then .ok (accValInt r acc ds)
        else .error .posOverflow := by
  have hmin : I64MIN ≤ (0 : Int) := by norm_num [I64MIN]
  induction ds with
  | nil =>
    intro acc h0 hM
    simp [parseI64Loop, accValInt, hM]
  | cons d ds ih =>
    intro acc h0 hM
    have hm0 : (0 : Int) ≤ acc * r := by positivity
    have ha0 : (0 : Int) ≤ acc * r + (d : Int) := by positivity
    have hcons : accValInt r acc (d :: ds) = accValInt r (acc * r + (d : Int)) ds := rfl
    by_cases hm : acc * r ≤ I64MAX
    · by_cases ha : acc * r + (d : Int) ≤ I64MAX
      · rw [show parseI64Loop false r acc (d :: ds)
              = parseI64Loop false r (acc * r + (d : Int)) ds from by
            simp [parseI64Loop, le_trans hmin hm0, hm, le_trans hmin ha0, ha]]
        rw [ih _ ha0 ha, hcons]
      · have hge := accValInt_ge r hr ds (acc * r + (d : Int)) ha0
        have hni : ¬ accValInt r acc (d :: ds) ≤ I64MAX := by
          rw [hcons]; omega
        rw [if_neg hni]
        simp [parseI64Loop, le_trans hmin hm0, hm, ha]
    · have hge := accValInt_ge r hr ds (acc * r + (d : Int)) ha0
      have hda : acc * r ≤ acc * r + (d : Int) := by
        have := Int.natCast_nonneg d
        omega
      have hni : ¬ accValInt r acc (d :: ds) ≤ I64MAX := by
        rw [hcons]; omega
      rw [if_neg hni]
      simp [parseI64Loop, hm]

theorem parseI64Loop_neg (r : Int) (hr : 1 ≤ r) (ds : List Nat) :
    ∀ acc : Int, acc ≤ 0 → I64MIN ≤ acc →
      parseI64Loop true r acc ds =
        if I64MIN ≤ accValNegInt r acc ds
        then .ok (accValNegInt r acc ds)
        else .error .negOverflow := by
  have hmax : (0 : Int) ≤ I64MAX := by norm_num [I64MAX]
  induction ds with
  | nil =>
    intro acc h0 hM
    simp [parseI64Loop, accValNegInt, hM]
  | cons d ds ih =>
    intro acc h0 hM
    have hm0 : acc * r ≤ 0 := mul_nonpos_of_nonpos_of_nonneg h0 (by omega)
    have ha0 : acc * r - (d : Int) ≤ 0 := by
      have := Int.natCast_nonneg d
      omega
    have hcons : accValNegInt r acc (d :: ds) = accValNegInt r (acc * r - (d : Int)) ds := rfl
    by_cases hm : I64MIN ≤ acc * r
    · by_cases ha : I64MIN ≤ acc * r - (d : Int)
      · rw [show parseI64Loop true r acc (d :: ds)
              = parseI64Loop true r (acc * r - (d : Int)) ds from by
            simp [parseI64Loop, le_trans hm0 hmax, hm, le_trans ha0 hmax, ha]]
        rw [ih _ ha0 ha, hcons]
      · have hge := accValNegInt_le r hr ds (acc * r - (d : Int)) ha0
        have hni : ¬ I64MIN ≤ accValNegInt r acc (d :: ds) := by
          rw [hcons]; omega
        rw [if_neg hni]
        simp [parseI64Loop, le_trans hm0 hmax, hm, ha]
    · have hge := accValNegInt_le r hr ds (acc * r - (d : Int)) ha0
      have hda : acc * r - (d : Int) ≤ acc * r := by
        have := Int.natCast_nonneg d
        omega
      have hni : ¬ I64MIN ≤ accValNegInt r acc (d :: ds) := by
        rw [hcons]; omega
      rw [if_neg hni]
      simp [parseI64Loop, hm]

theorem accValNegInt_neg (r : Int) (ds : List Nat) :
    ∀ acc : Int, accValNegInt r (-acc) ds = -(accValInt r acc ds) := by
  induction ds with
  | nil => intro acc; rfl
  | cons d ds ih =>
    intro acc
    have h1 : (-acc) * r - (d : Int) = -(acc * r + (d : Int)) := by ring
    show accValNegInt r ((-acc) * r - (d : Int)) ds = _
    rw [h1, ih]
    rfl

/-- C5: an integer literal (decimal, optionally signed, or hexadecimal)
whose numeric value exceeds the signed 64-bit range makes tokenization
fail with an `InvalidInteger` lexical error whose cause is rendered as
overflow; a literal within range converts to the corresponding signed
64-bit token value.  `ds` is the digit-value list of the lexeme. -/
theorem claim_c5_integer_overflow :
    (∀ ds : List Nat,
       integerTokenDec false ds =
         if ((natVal 10 ds : Nat) : Int) ≤ I64MAX then .ok ((natVal 10 ds : Nat) : Int)
         else .error (.invalidInteger .posOverflow))
    ∧ (∀ ds : List Nat,
       integerTokenDec true ds =
         if I64MIN ≤ -((natVal 10 ds : Nat) : Int) then .ok (-((natVal 10 ds : Nat) : Int))
         else .error (.invalidInteger .negOverflow))
    ∧ (∀ ds : List Nat,
       integerTokenHex ds =
         if ((natVal 16 ds : Nat) : Int) ≤ I64MAX then .ok ((natVal 16 ds : Nat) : Int)
         else .error (.invalidInteger .posOverflow))
    ∧ overflowCauseText .posOverflow = "overflow"
    ∧ overflowCauseText .negOverflow = "overflow" := by
  have hdec : ∀ ds : List Nat, parseI64Dec false ds =
      if ((natVal 10 ds : Nat) : Int) ≤ I64MAX then .ok ((natVal 10 ds : Nat) : Int)
      else .error .posOverflow := by
    intro ds
    have h := parseI64Loop_pos 10 (by norm_num) ds 0 le_rfl (by norm_num [I64MAX])
    have hv : accValInt 10 0 ds = ((natVal 10 ds : Nat) : Int) := by
      have := accValInt_cast 10 ds 0
      simpa [natVal] using this
    rw [parseI64Dec, h, hv]
  have hhex : ∀ ds : List Nat, parseI64Hex ds =
      if ((natVal 16 ds : Nat) : Int) ≤ I64MAX then .ok ((natVal 16 ds : Nat) : Int)
      else .error .posOverflow := by
    intro ds
    have h := parseI64Loop_pos 16 (by norm_num) ds 0 le_rfl (by norm_num [I64MAX])
    have hv : accValInt 16 0 ds = ((natVal 16 ds : Nat) : Int) := by
      have := accValInt_cast 16 ds 0
      simpa [natVal] using this
    rw [parseI64Hex, h, hv]
  have hneg : ∀ ds : List Nat, parseI64Dec true ds =
      if I64MIN ≤ -((natVal 10 ds : Nat) : Int) then .ok (-((natVal 10 ds : Nat) : Int))
      else .error .negOverflow := by
    intro ds
    have h := parseI64Loop_neg 10 (by norm_num) ds 0 le_rfl (by norm_num [I64MIN])
    have hv : accValNegInt 10 0 ds = -((natVal 10 ds : Nat) : Int) := by
      have h0 : (0 : Int) = -0 := by norm_num
      rw [h0, accValNegInt_neg]
      simp only [neg_inj]
      have := accValInt_cast 10 ds 0
      simpa [natVal] using this
    rw [parseI64Dec, h, hv]
  refine ⟨?_, ?_, ?_, rfl, rfl⟩
  · intro ds
    rw [integerTokenDec, hdec ds]
    by_cases h : ((natVal 10 ds : Nat) : Int) ≤ I64MAX <;> simp [h]
  · intro ds
    rw [integerTokenDec, hneg ds]
    by_cases h : I64MIN ≤ -((natVal 10 ds : Nat) : Int) <;> simp [h]
  · intro ds
    rw [integerTokenHex, hhex ds]
    by_cases h : ((natVal 16 ds : Nat) : Int) ≤ I64MAX <;> simp [h]

theorem strTail_sound (q : Char) (hq : q ≠ '\n') :
    ∀ (n : Nat) (cs : List Char), cs.length ≤ n → ∀ w r, strTail q cs = some (w, r) →
      ∃ inner, w = inner ++ [q] ∧ cs = w ++ r ∧ '\n' ∉ inner := by
  intro n
  induction n with
  | zero =>
    intro cs hlen w r h
    have hcs : cs = [] := List.length_eq_zero.mp (Nat.le_zero.mp hlen)
    subst hcs
    exact absurd h (by simp [strTail])
  | succ n ih =>
    intro cs hlen w r h
    match cs with
    | [] => exact absurd h (by simp [strTail])
    | [c] =>
      unfold strTail at h
      by_cases h1 : c = q
      · rw [if_pos h1] at h
        injection h with h
        injection h with hw hr
        subst hw; subst hr; subst h1
        exact ⟨[], rfl, rfl, by simp⟩
      · rw [if_neg h1] at h
        exact absurd h (by simp)
    | c :: c2 :: cs2 =>
      unfold strTail at h
      by_cases h1 : c = q
      · rw [if_pos h1] at h
        injection h with h
        injection h with hw hr
        subst hw; subst hr; subst h1
        exact ⟨[], rfl, rfl, by simp⟩
      · rw [if_neg h1] at h
        by_cases h2 : c = '\n'
        · rw [if_pos h2] at h; exact absurd h (by simp)
        · rw [if_neg h2] at h
          by_cases h3 : c = '\\'
          · rw [if_pos h3] at h
            by_cases h4 : c2 = q
            · rw [if_pos h4] at h
              cases heq : strTail q cs2 with
              | some p =>
                obtain ⟨w2, r2⟩ := p
                rw [heq] at h
                injection h with h
                injection h with hw hr
                subst hw; subst hr
                have hlen2 : cs2.length ≤ n := by
                  simp only [List.length_cons] at hlen
                  omega
                obtain ⟨inner2, hwi, hcsi, hni⟩ := ih cs2 hlen2 w2 r2 heq
                refine ⟨'\\' :: q :: inner2, by simp [hwi], by simp [h3, h4, hcsi], ?_⟩
                simp only [List.mem_cons, not_or]
                exact ⟨by decide, fun hc => hq hc.symm, hni⟩
              | none =>
                rw [heq] at h
                injection h with h
                injection h with hw hr
                subst hw; subst hr
                exact ⟨['\\'], rfl, by simp [h3, h4], by decide⟩
            · rw [if_neg h4] at h
              cases heq : strTail q (c2 :: cs2) with
              | some p =>
                obtain ⟨w2, r2⟩ := p
                rw [heq] at h
                injection h with h
                injection h with hw hr
                subst hw; subst hr
                have hlen2 : (c2 :: cs2).length ≤ n := by
                  simp only [List.length_cons] at hlen ⊢
                  omega
                obtain ⟨inner2, hwi, hcsi, hni⟩ := ih (c2 :: cs2) hlen2 w2 r2 heq
                refine ⟨c :: inner2, by simp [hwi], by simp [hcsi], ?_⟩
                simp only [List.mem_cons, not_or]
                exact ⟨fun hc => h2 hc.symm, hni⟩
              | none => rw [heq] at h; exact absurd h (by simp)
          · rw [if_neg h3] at h
            cases heq : strTail q (c2 :: cs2) with
            | some p =>
              obtain ⟨w2, r2⟩ := p
              rw [heq] at h
              injection h with h
              injection h with hw hr
              subst hw; subst hr
              have hlen2 : (c2 :: cs2).length ≤ n := by
                simp only [List.length_cons] at hlen ⊢
                omega
              obtain ⟨inner2, hwi, hcsi, hni⟩ := ih (c2 :: cs2) hlen2 w2 r2 heq
              refine ⟨c :: inner2, by simp [hwi], by simp [hcsi], ?_⟩
              simp only [List.mem_cons, not_or]
              exact ⟨fun hc => h2 hc.symm, hni⟩
            | none => rw [heq] at h; exact absurd h (by simp)

/-- C8: a string literal token carries the inner content with its quote
delimiters stripped; the opening and closing delimiter are the same
quote character; the literal cannot span a line break; and the content is
the verbatim source slice between the delimiters (escape sequences are not
interpreted, except that an escaped matching quote may appear inside
without terminating the literal, as the concrete conjunct shows). -/
theorem claim_c8_string_literal :
    (∀ (q : Char) (cs lexeme content rest : List Char),
       (q = '\'' ∨ q = '"') →
       lexStringLit q cs = some (lexeme, content, rest) →
       ∃ inner, lexeme = q :: (inner ++ [q])
         ∧ cs = (q :: (inner ++ [q])) ++ rest
         ∧ content = inner
         ∧ content = stringFromLexer lexeme
         ∧ '\n' ∉ inner)
    ∧ lexStringLit '\'' ['\'', 'a', '\\', '\'', 'b', '\'', 'x']
        = some (['\'', 'a', '\\', '\'', 'b', '\''], ['a', '\\', '\'', 'b'], ['x']) := by
  constructor
  · intro q cs lexeme content rest hq h
    have hq' : q ≠ '\n' := by
      rcases hq with h | h <;> subst h <;> decide
    match cs with
    | [] => exact absurd h (by simp [lexStringLit])
    | c :: cs' =>
      rw [lexStringLit] at h
      by_cases h1 : c = q
      · rw [if_pos h1] at h
        cases heq : strTail q cs' with
        | some p =>
          obtain ⟨w, r⟩ := p
          rw [heq] at h
          injection h with h
          injection h with hlex h
          injection h with hcont hrest
          obtain ⟨inner, hwi, hcsi, hni⟩ :=
            strTail_sound q hq' cs'.length cs' le_rfl w r heq
          subst hwi
          refine ⟨inner, ?_, ?_, ?_, ?_, hni⟩
          · rw [← hlex]
          · rw [← hrest, h1, hcsi]
            simp
          · rw [← hcont]
            simp [stringFromLexer, dropRightChars, List.take_left]
          · rw [← hcont, ← hlex]
        | none => rw [heq] at h; exact absurd h (by simp)
      · rw [if_neg h1] at h; exact absurd h (by simp)
  · rfl

theorem commentSrcs_cons (t : Token) (a b : Nat) (ts : List STok) (h : isCommentTok t = false) :
    commentSrcs ((t, a, b) :: ts) = commentSrcs ts := by
  cases t <;> simp_all [commentSrcs, isCommentTok]

theorem parseName_comments (ts : List STok) (s : String) (rest : List STok)
    (h : parseName ts = some (s, rest)) : commentSrcs ts = commentSrcs rest := by
  match ts with
  | [] => exact absurd h (by simp [parseName])
  | (t, a, b) :: ts' =>
    cases t <;> simp_all [parseName, keywordText, commentSrcs]

theorem parseDottedAux_comments :
    ∀ (f : Nat) (acc : String) (ts : List STok) (s : String) (rest : List STok),
      parseDottedAux f acc ts = some (s, rest) → commentSrcs ts = commentSrcs rest := by
  intro f
  induction f with
  | zero =>
    intro acc ts s rest h
    unfold parseDottedAux at h
    split at h
    · split at h
      · exact absurd h (by simp)
      · omega
    · injection h with h
      injection h with hs hr
      rw [hr]
  | succ f' ih =>
    intro acc ts s rest h
    unfold parseDottedAux at h
    split at h
    · split at h
      · exact absurd h (by simp)
      · rename_i fst snd rest' f0 f2 heq
        have hf : f2 = f' := by omega
        rw [hf] at h
        cases hname : parseName rest' with
        | some p =>
          obtain ⟨s2, r2⟩ := p
          rw [hname] at h
          replace h : parseDottedAux f' (acc ++ "." ++ s2) r2 = some (s, rest) := h
          have h1 := parseName_comments _ _ _ hname
          have h2 := ih _ _ _ _ h
          calc commentSrcs ((Token.period, fst, snd) :: rest')
              = commentSrcs rest' := commentSrcs_cons _ _ _ _ (by rfl)
            _ = commentSrcs r2 := h1
            _ = commentSrcs rest := h2
        | none =>
          rw [hname] at h
          exact absurd h (by simp)
    · injection h with h
      injection h with hs hr
      rw [hr]

theorem parseDotted_comments (f : Nat) (ts : List STok) (s : String) (rest : List STok)
    (h : parseDotted f ts = some (s, rest)) : commentSrcs ts = commentSrcs rest := by
  unfold parseDotted at h
  split at h
  · rename_i s2 r2 hname
    exact (parseName_comments _ _ _ hname).trans (parseDottedAux_comments _ _ _ _ _ h)
  · exact absurd h (by simp)

theorem parseFieldType_comments (src : String) (f : Nat) (ts : List STok) (ty : String)
    (rest : List STok) (h : parseFieldType src f ts = some (ty, rest)) :
    commentSrcs ts = commentSrcs rest := by
  unfold parseFieldType at h
  split at h
  · rename_i ms u1 u2 u3 rest'
    split at h
    · rename_i kres u4 u5 r2 hd1
      split at h
      · rename_i vres aa ae r3 hd2
        injection h with h
        injection h with hty hr
        have h1 := parseDotted_comments _ _ _ _ hd1
        have h2 := parseDotted_comments _ _ _ _ hd2
        calc commentSrcs ((Token.kwMap, ms, u1) :: (Token.openAngle, u2, u3) :: rest')
            = commentSrcs rest' := by
              rw [commentSrcs_cons _ _ _ _ (by rfl), commentSrcs_cons _ _ _ _ (by rfl)]
          _ = commentSrcs ((Token.comma, u4, u5) :: r2) := h1
          _ = commentSrcs r2 := commentSrcs_cons _ _ _ _ (by rfl)
          _ = commentSrcs ((Token.closeAngle, aa, ae) :: r3) := h2
          _ = commentSrcs r3 := commentSrcs_cons _ _ _ _ (by rfl)
          _ = commentSrcs rest := by rw [hr]
      · exact absurd h (by simp)
    · exact absurd h (by simp)
  · exact parseDotted_comments _ _ _ _ h

theorem parseRangeItem_comments (ts : List STok) (rg : Range) (rest : List STok)
    (h : parseRangeItem ts = some (rg, rest)) : commentSrcs ts = commentSrcs rest := by
  unfold parseRangeItem at h
  split at h
  · injection h with h
    injection h with h1 h2
    subst h2
    simp [commentSrcs]
  · injection h with h
    injection h with h1 h2
    subst h2
    simp [commentSrcs]
  · split at h
    · exact absurd h (by simp)
    · injection h with h
      injection h with h1 h2
      subst h2
      simp [commentSrcs]
  · exact absurd h (by simp)

theorem parseRangeListAux_comments :
    ∀ (f : Nat) (acc : List Range) (ts : List STok) (rs : List Range) (rest : List STok),
      parseRangeListAux f acc ts = some (rs, rest) → commentSrcs ts = commentSrcs rest := by
  intro f
  induction f with
  | zero =>
    intro acc ts rs rest h
    unfold parseRangeListAux at h
    split at h
    · rename_i rg r hitem
      split at h
      · split at h
        · exact absurd h (by simp)
        · omega
      · injection h with h
        injection h with h1 h2
        subst h2
        exact parseRangeItem_comments _ _ _ hitem
    · exact absurd h (by simp)
  | succ f' ih =>
    intro acc ts rs rest h
    unfold parseRangeListAux at h
    split at h
    · rename_i rg r hitem
      have h0 := parseRangeItem_comments _ _ _ hitem
      split at h
      · rename_i a b rest2
        split at h
        · exact absurd h (by simp)
        · rename_i f0 f2 heq
          have hf : f2 = f' := by omega
          rw [hf] at h
          have h1 := ih _ _ _ _ h
          calc commentSrcs ts = commentSrcs ((Token.comma, a, b) :: rest2) := h0
            _ = commentSrcs rest2 := commentSrcs_cons _ _ _ _ (by rfl)
            _ = commentSrcs rest := h1
      · injection h with h
        injection h with h1 h2
        subst h2
        exact h0
    · exact absurd h (by simp)

theorem parseStringListAux_comments :
    ∀ (f : Nat) (acc : List String) (ts : List STok) (ss : List String) (rest : List STok),
      parseStringListAux f acc ts = some (ss, rest) → commentSrcs ts = commentSrcs rest := by
  intro f
  induction f with
  | zero =>
    intro acc ts ss rest h
    unfold parseStringListAux at h
    split at h
    · rename_i sv a b rest'
      split at h
      · split at h
        · exact absurd h (by simp)
        · omega
      · injection h with h
        injection h with h1 h2
        subst h2
        simp [commentSrcs]
    · exact absurd h (by simp)
  | succ f' ih =>
    intro acc ts ss rest h
    unfold parseStringListAux at h
    split at h
    · rename_i sv a b rest'
      split at h
      · rename_i c d rest2
        split at h
        · exact absurd h (by simp)
        · rename_i f0 f2 heq
          have hf : f2 = f' := by omega
          rw [hf] at h
          have h1 := ih _ _ _ _ h
          calc commentSrcs ((Token.strLit sv, a, b) :: (Token.comma, c, d) :: rest2)
              = commentSrcs rest2 := by
                rw [commentSrcs_cons _ _ _ _ (by rfl), commentSrcs_cons _ _ _ _ (by rfl)]
            _ = commentSrcs rest := h1
      · injection h with h
        injection h with h1 h2
        subst h2
        simp [commentSrcs]
    · exact absurd h (by simp)

theorem parseReservedTail_comments (f : Nat) (ts : List STok) (e : MessageEntry)
    (rest : List STok) (h : parseReservedTail f ts = some (e, rest)) :
    commentSrcs ts = commentSrcs rest ∧ msgEntryComments e = [] := by
  unfold parseReservedTail at h
  split at h
  · split at h
    · rename_i rs u1 u2 r2 hlist
      injection h with h
      injection h with h1 h2
      have hl := parseRangeListAux_comments _ _ _ _ _ hlist
      refine ⟨?_, by rw [← h1]; rfl⟩
      rw [hl, commentSrcs_cons _ _ _ _ (by rfl), h2]
    · exact absurd h (by simp)
  · split at h
    · rename_i ss u1 u2 r2 hlist
      injection h with h
      injection h with h1 h2
      have hl := parseStringListAux_comments _ _ _ _ _ hlist
      refine ⟨?_, by rw [← h1]; rfl⟩
      rw [hl, commentSrcs_cons _ _ _ _ (by rfl), h2]
    · exact absurd h (by simp)
  · exact absurd h (by simp)

theorem parseExtensionsTail_comments (f : Nat) (ts : List STok) (e : MessageEntry)
    (rest : List STok) (h : parseExtensionsTail f ts = some (e, rest)) :
    commentSrcs ts = commentSrcs rest ∧ msgEntryComments e = [] := by
  unfold parseExtensionsTail at h
  split at h
  · split at h
    · rename_i rs u1 u2 r2 hlist
      injection h with h
      injection h with h1 h2
      have hl := parseRangeListAux_comments _ _ _ _ _ hlist
      refine ⟨?_, by rw [← h1]; rfl⟩
      rw [hl, commentSrcs_cons _ _ _ _ (by rfl), h2]
    · exact absurd h (by simp)
  · exact absurd h (by simp)

theorem parseFieldCore_comments (src : String) (f : Nat) (modifier : FieldModifier)
    (ts : List STok) (fd : Field) (rest : List STok)
    (h : parseFieldCore src f modifier ts = some (fd, rest)) :
    commentSrcs ts = commentSrcs rest := by
  unfold parseFieldCore at h
  split at h
  · rename_i ty ts2 hft
    split at h
    · rename_i nm u1 u2 i u3 u4 u5 u6 ts3 hname
      injection h with h
      injection h with h1 h2
      have hl := parseFieldType_comments _ _ _ _ _ hft
      have hn := parseName_comments _ _ _ hname
      rw [hl, hn, commentSrcs_cons _ _ _ _ (by rfl), commentSrcs_cons _ _ _ _ (by rfl),
        commentSrcs_cons _ _ _ _ (by rfl), h2]
    · exact absurd h (by simp)
  · exact absurd h (by simp)

theorem parseField_comments (src : String) (f : Nat) (ts : List STok) (fd : Field)
    (rest : List STok) (h : parseField src f ts = some (fd, rest)) :
    commentSrcs ts = commentSrcs rest := by
  unfold parseField at h
  split at h
  case _ a b r =>
    split at h
    · rename_i x hcore
      injection h with h
      rw [h] at hcore
      exact (commentSrcs_cons _ _ _ _ (by rfl)).trans (parseFieldCore_comments _ _ _ _ _ _ hcore)
    · exact parseFieldCore_comments _ _ _ _ _ _ h
  case _ a b r =>
    split at h
    · rename_i x hcore
      injection h with h
      rw [h] at hcore
      exact (commentSrcs_cons _ _ _ _ (by rfl)).trans (parseFieldCore_comments _ _ _ _ _ _ hcore)
    · exact parseFieldCore_comments _ _ _ _ _ _ h
  case _ a b r =>
    split at h
    · rename_i x hcore
      injection h with h
      rw [h] at hcore
      exact (commentSrcs_cons _ _ _ _ (by rfl)).trans (parseFieldCore_comments _ _ _ _ _ _ hcore)
    · exact parseFieldCore_comments _ _ _ _ _ _ h
  case _ =>
    exact parseFieldCore_comments _ _ _ _ _ _ h

theorem parseRpcAfterRep_comments (f : Nat) (nm req : String) (s1 s2 : Bool)
    (ts : List STok) (rp : Rpc) (rest : List STok)
    (h : parseRpcAfterRep f nm req s1 s2 ts = some (rp, rest)) :
    commentSrcs ts = commentSrcs rest := by
  unfold parseRpcAfterRep at h
  split at h
  · rename_i rep u1 u2 r6 hd
    have hdc := parseDotted_comments _ _ _ _ hd
    split at h
    · rename_i u3 u4 r7
      injection h with h
      injection h with h1 h2
      rw [hdc, commentSrcs_cons _ _ _ _ (by rfl), commentSrcs_cons _ _ _ _ (by rfl), h2]
    · rename_i u3 u4 u5 u6 r7
      injection h with h
      injection h with h1 h2
      rw [hdc, commentSrcs_cons _ _ _ _ (by rfl), commentSrcs_cons _ _ _ _ (by rfl),
        commentSrcs_cons _ _ _ _ (by rfl), h2]
    · exact absurd h (by simp)
  · exact absurd h (by simp)

theorem parseRpcAfterReq_comments (f : Nat) (nm : String) (s1 : Bool)
    (ts : List STok) (rp : Rpc) (rest : List STok)
    (h : parseRpcAfterReq f nm s1 ts = some (rp, rest)) :
    commentSrcs ts = commentSrcs rest := by
  unfold parseRpcAfterReq at h
  split at h
  · rename_i req u1 u2 u3 u4 u5 u6 r4 hd
    have hdc := parseDotted_comments _ _ _ _ hd
    split at h
    · rename_i u7 u8 rr
      have hrep := parseRpcAfterRep_comments _ _ _ _ _ _ _ _ h
      rw [hdc, commentSrcs_cons _ _ _ _ (by rfl), commentSrcs_cons _ _ _ _ (by rfl),
        commentSrcs_cons _ _ _ _ (by rfl), commentSrcs_cons _ _ _ _ (by rfl), hrep]
    · have hrep := parseRpcAfterRep_comments _ _ _ _ _ _ _ _ h
      rw [hdc, commentSrcs_cons _ _ _ _ (by rfl), commentSrcs_cons _ _ _ _ (by rfl),
        commentSrcs_cons _ _ _ _ (by rfl), hrep]
  · exact absurd h (by simp)

theorem parseRpc_comments (f : Nat) (ts : List STok) (rp : Rpc) (rest : List STok)
    (h : parseRpc f ts = some (rp, rest)) : commentSrcs ts = commentSrcs rest := by
  unfold parseRpc at h
  split at h
  · rename_i u1 u2 rest'
    split at h
    · rename_i nm u3 u4 r2 hname
      have hnc := parseName_comments _ _ _ hname
      split at h
      · rename_i u5 u6 rr
        have hreq := parseRpcAfterReq_comments _ _ _ _ _ _ h
        rw [commentSrcs_cons _ _ _ _ (by rfl), hnc, commentSrcs_cons _ _ _ _ (by rfl),
          commentSrcs_cons _ _ _ _ (by rfl), hreq]
      · have hreq := parseRpcAfterReq_comments _ _ _ _ _ _ h
        rw [commentSrcs_cons _ _ _ _ (by rfl), hnc, commentSrcs_cons _ _ _ _ (by rfl), hreq]
    · exact absurd h (by simp)
  · exact absurd h (by simp)

theorem parseServiceEntriesAux_comments :
    ∀ (f : Nat) (ts : List STok) (es : List ServiceEntry) (rest : List STok),
      parseServiceEntriesAux f ts = some (es, rest) →
      commentSrcs ts = serviceEntriesComments es ++ commentSrcs rest := by
  intro f
  induction f with
  | zero =>
    intro ts es rest h
    unfold parseServiceEntriesAux at h
    split at h
    · injection h with h
      injection h with h1 h2
      rw [← h1, ← h2]
      rfl
    · injection h with h
      injection h with h1 h2
      rw [← h1, ← h2]
      rfl
    · split at h
      · exact absurd h (by simp)
      · omega
    · split at h
      · exact absurd h (by simp)
      · omega
    · split at h
      · split at h
        · exact absurd h (by simp)
        · omega
      · exact absurd h (by simp)
  | succ f' ih =>
    intro ts es rest h
    unfold parseServiceEntriesAux at h
    split at h
    · injection h with h
      injection h with h1 h2
      rw [← h1, ← h2]
      rfl
    · injection h with h
      injection h with h1 h2
      rw [← h1, ← h2]
      rfl
    · rename_i s a b rest'
      split at h
      · exact absurd h (by simp)
      · rename_i f0 f2 heq
        have hf : f2 = f' := by omega
        rw [hf] at h
        split at h
        · rename_i es2 r2 hrec
          injection h with h
          injection h with h1 h2
          have hr := ih _ _ _ hrec
          rw [← h1, ← h2]
          calc commentSrcs ((Token.singleLineComment s, a, b) :: rest')
              = Comment.single_line s :: commentSrcs rest' := rfl
            _ = Comment.single_line s :: (serviceEntriesComments es2 ++ commentSrcs r2) := by rw [hr]
            _ = serviceEntriesComments (ServiceEntry.comment (Comment.single_line s) :: es2)
                  ++ commentSrcs r2 := rfl
        · exact absurd h (by simp)
    · rename_i s a b rest'
      split at h
      · exact absurd h (by simp)
      · rename_i f0 f2 heq
        have hf : f2 = f' := by omega
        rw [hf] at h
        split at h
        · rename_i es2 r2 hrec
          injection h with h
          injection h with h1 h2
          have hr := ih _ _ _ hrec
          rw [← h1, ← h2]
          calc commentSrcs ((Token.multiLineComment s, a, b) :: rest')
              = Comment.multi_line s :: commentSrcs rest' := rfl
            _ = Comment.multi_line s :: (serviceEntriesComments es2 ++ commentSrcs r2) := by rw [hr]
            _ = serviceEntriesComments (ServiceEntry.comment (Comment.multi_line s) :: es2)
                  ++ commentSrcs r2 := rfl
        · exact absurd h (by simp)
    · split at h
      · rename_i rp r2 hrpc
        split at h
        · exact absurd h (by simp)
        · rename_i f0 f2 heq
          have hf : f2 = f' := by omega
          rw [hf] at h
          split at h
          · rename_i es2 r3 hrec
            injection h with h
            injection h with h1 h2
            have hrp := parseRpc_comments _ _ _ _ hrpc
            have hr := ih _ _ _ hrec
            rw [← h1, ← h2, hrp, hr]
            rfl
          · exact absurd h (by simp)
      · exact absurd h (by simp)

theorem parseService_comments (f : Nat) (ts : List STok) (sv : Service) (rest : List STok)
    (h : parseService f ts = some (sv, rest)) :
    commentSrcs ts = serviceComments sv ++ commentSrcs rest := by
  unfold parseService at h
  split at h
  · rename_i u1 u2 rest'
    split at h
    · rename_i nm u3 u4 r2 hname
      have hnc := parseName_comments _ _ _ hname
      split at h
      · rename_i es u5 u6 r3 hents
        injection h with h
        injection h with h1 h2
        have hec := parseServiceEntriesAux_comments _ _ _ _ hents
        rw [commentSrcs_cons _ _ _ _ (by rfl), hnc, commentSrcs_cons _ _ _ _ (by rfl), hec,
          commentSrcs_cons _ _ _ _ (by rfl), h2, ← h1]
        rfl
      · exact absurd h (by simp)
    · exact absurd h (by simp)
  · exact absurd h (by simp)

theorem msgParse_comments :
    ∀ f : Nat,
      (∀ (src : String) (ts : List STok) (e : MessageEntry) (rest : List STok),
         parseMessageEntry src f ts = some (e, rest) →
         commentSrcs ts = msgEntryComments e ++ commentSrcs rest)
      ∧ (∀ (src : String) (ts : List STok) (es : List MessageEntry) (rest : List STok),
         parseMessageEntries src f ts = some (es, rest) →
         commentSrcs ts = msgEntriesComments es ++ commentSrcs rest)
      ∧ (∀ (src : String) (ts : List STok) (m : Message) (rest : List STok),
         parseMessage src f ts = some (m, rest) →
         commentSrcs ts = msgComments m ++ commentSrcs rest) := by
  intro f
  induction f with
  | zero =>
    refine ⟨?_, ?_, ?_⟩
    · intro src ts e rest h
      rw [parseMessageEntry.eq_def] at h
      split at h
      · injection h with h
        injection h with h1 h2
        rw [← h1, ← h2]
        rfl
      · injection h with h
        injection h with h1 h2
        rw [← h1, ← h2]
        rfl
      · split at h
        · rename_i e2 r2 hres
          injection h with h
          injection h with h1 h2
          obtain ⟨hc, he⟩ := parseReservedTail_comments _ _ _ _ hres
          rw [← h1, ← h2, he, commentSrcs_cons _ _ _ _ (by rfl), hc]
          rfl
        · split at h
          · rename_i fd r2 hfld
            injection h with h
            injection h with h1 h2
            have hc := parseField_comments _ _ _ _ _ hfld
            rw [← h1, ← h2, hc]
            rfl
          · exact absurd h (by simp)
      · split at h
        · rename_i e2 r2 hext
          injection h with h
          injection h with h1 h2
          obtain ⟨hc, he⟩ := parseExtensionsTail_comments _ _ _ _ hext
          rw [← h1, ← h2, he, commentSrcs_cons _ _ _ _ (by rfl), hc]
          rfl
        · split at h
          · rename_i fd r2 hfld
            injection h with h
            injection h with h1 h2
            have hc := parseField_comments _ _ _ _ _ hfld
            rw [← h1, ← h2, hc]
            rfl
          · exact absurd h (by simp)
      · split at h
        · split at h
          · rename_i fd r2 hfld
            injection h with h
            injection h with h1 h2
            have hc := parseField_comments _ _ _ _ _ hfld
            rw [← h1, ← h2, hc]
            rfl
          · exact absurd h (by simp)
        · omega
      · split at h
        · rename_i fd r2 hfld
          injection h with h
          injection h with h1 h2
          have hc := parseField_comments _ _ _ _ _ hfld
          rw [← h1, ← h2, hc]
          rfl
        · exact absurd h (by simp)
    · intro src ts es rest h
      rw [parseMessageEntries.eq_def] at h
      split at h
      · injection h with h
        injection h with h1 h2
        rw [← h1, ← h2]
        rfl
      · injection h with h
        injection h with h1 h2
        rw [← h1, ← h2]
        rfl
      · split at h
        · exact absurd h (by simp)
        · omega
    · intro src ts m rest h
      rw [parseMessage.eq_def] at h
      split at h
      · rename_i u1 u2 rest'
        split at h
        · rename_i nm u3 u4 r2 hname
          split at h
          · exact absurd h (by simp)
          · omega
        · exact absurd h (by simp)
      · exact absurd h (by simp)
  | succ f' ih =>
    obtain ⟨ihEntry, ihEntries, ihMsg⟩ := ih
    refine ⟨?_, ?_, ?_⟩
    · intro src ts e rest h
      rw [parseMessageEntry.eq_def] at h
      split at h
      · injection h with h
        injection h with h1 h2
        rw [← h1, ← h2]
        rfl
      · injection h with h
        injection h with h1 h2
        rw [← h1, ← h2]
        rfl
      · split at h
        · rename_i e2 r2 hres
          injection h with h
          injection h with h1 h2
          obtain ⟨hc, he⟩ := parseReservedTail_comments _ _ _ _ hres
          rw [← h1, ← h2, he, commentSrcs_cons _ _ _ _ (by rfl), hc]
          rfl
        · split at h
          · rename_i fd r2 hfld
            injection h with h
            injection h with h1 h2
            have hc := parseField_comments _ _ _ _ _ hfld
            rw [← h1, ← h2, hc]
            rfl
          · exact absurd h (by simp)
      · split at h
        · rename_i e2 r2 hext
          injection h with h
          injection h with h1 h2
          obtain ⟨hc, he⟩ := parseExtensionsTail_comments _ _ _ _ hext
          rw [← h1, ← h2, he, commentSrcs_cons _ _ _ _ (by rfl), hc]
          rfl
        · split at h
          · rename_i fd r2 hfld
            injection h with h
            injection h with h1 h2
            have hc := parseField_comments _ _ _ _ _ hfld
            rw [← h1, ← h2, hc]
            rfl
          · exact absurd h (by simp)
      · split at h
        · split at h
          · rename_i fd r2 hfld
            injection h with h
            injection h with h1 h2
            have hc := parseField_comments _ _ _ _ _ hfld
            rw [← h1, ← h2, hc]
            rfl
          · exact absurd h (by simp)
        · rename_i f0 f2 heq
          have hf : f2 = f' := by omega
          rw [hf] at h
          split at h
          · rename_i m2 r2 hmsg
            injection h with h
            injection h with h1 h2
            have hc := ihMsg _ _ _ _ hmsg
            rw [← h1, ← h2, hc]
            rfl
          · split at h
            · rename_i fd r2 hfld
              injection h with h
              injection h with h1 h2
              have hc := parseField_comments _ _ _ _ _ hfld
              rw [← h1, ← h2, hc]
              rfl
            · exact absurd h (by simp)
      · split at h
        · rename_i fd r2 hfld
          injection h with h
          injection h with h1 h2
          have hc := parseField_comments _ _ _ _ _ hfld
          rw [← h1, ← h2, hc]
          rfl
        · exact absurd h (by simp)
    · intro src ts es rest h
      rw [parseMessageEntries.eq_def] at h
      split at h
      · injection h with h
        injection h with h1 h2
        rw [← h1, ← h2]
        rfl
      · injection h with h
        injection h with h1 h2
        rw [← h1, ← h2]
        rfl
      · split at h
        · exact absurd h (by simp)
        · rename_i f0 f2 heq
          have hf : f2 = f' := by omega
          rw [hf] at h
          split at h
          · rename_i e r1 hent
            split at h
            · rename_i es2 r2 hrec
              injection h with h
              injection h with h1 h2
              have hc1 := ihEntry _ _ _ _ hent
              have hc2 := ihEntries _ _ _ _ hrec
              rw [← h1, ← h2, hc1, hc2]
              simp [msgEntriesComments]
            · exact absurd h (by simp)
          · exact absurd h (by simp)
    · intro src ts m rest h
      rw [parseMessage.eq_def] at h
      split at h
      · rename_i u1 u2 rest'
        split at h
        · rename_i nm u3 u4 r2 hname
          split at h
          · exact absurd h (by simp)
          · rename_i f0 f2 heq
            have hf : f2 = f' := by omega
            rw [hf] at h
            split at h
            · rename_i es u5 u6 r3 hents
              injection h with h
              injection h with h1 h2
              have hnc := parseName_comments _ _ _ hname
              have hec := ihEntries _ _ _ _ hents
              rw [commentSrcs_cons _ _ _ _ (by rfl), hnc, commentSrcs_cons _ _ _ _ (by rfl),
                hec, commentSrcs_cons _ _ _ _ (by rfl), ← h1, ← h2]
              rfl
            · exact absurd h (by simp)
        · exact absurd h (by simp)
      · exact absurd h (by simp)

theorem parseRootEntries_comments :
    ∀ (f : Nat) (src : String) (ts : List STok) (es : List RootEntry) (rest : List STok),
      parseRootEntries src f ts = some (es, rest) →
      commentSrcs ts = rootComments es ++ commentSrcs rest := by
  intro f
  induction f with
  | zero =>
    intro src ts es rest h
    unfold parseRootEntries at h
    split at h
    · injection h with h
      injection h with h1 h2
      rw [← h1, ← h2]
      rfl
    · split at h
      · exact absurd h (by simp)
      · omega
    · split at h
      · exact absurd h (by simp)
      · omega
    · split at h
      · exact absurd h (by simp)
      · omega
    · split at h
      · exact absurd h (by simp)
      · omega
    · split at h
      · exact absurd h (by simp)
      · omega
    · exact absurd h (by simp)
  | succ f' ih =>
    intro src ts es rest h
    unfold parseRootEntries at h
    split at h
    · injection h with h
      injection h with h1 h2
      rw [← h1, ← h2]
      rfl
    · rename_i s a b rest'
      split at h
      · exact absurd h (by simp)
      · rename_i f0 f2 heq
        have hf : f2 = f' := by omega
        rw [hf] at h
        split at h
        · rename_i es2 r2 hrec
          injection h with h
          injection h with h1 h2
          have hr := ih _ _ _ _ hrec
          rw [← h1, ← h2]
          calc commentSrcs ((Token.singleLineComment s, a, b) :: rest')
              = Comment.single_line s :: commentSrcs rest' := rfl
            _ = Comment.single_line s :: (rootComments es2 ++ commentSrcs r2) := by rw [hr]
            _ = rootComments (RootEntry.comment (Comment.single_line s) :: es2)
                  ++ commentSrcs r2 := by simp [rootComments, rootEntryComments]
        · exact absurd h (by simp)
    · rename_i s a b rest'
      split at h
      · exact absurd h (by simp)
      · rename_i f0 f2 heq
        have hf : f2 = f' := by omega
        rw [hf] at h
        split at h
        · rename_i es2 r2 hrec
          injection h with h
          injection h with h1 h2
          have hr := ih _ _ _ _ hrec
          rw [← h1, ← h2]
          calc commentSrcs ((Token.multiLineComment s, a, b) :: rest')
              = Comment.multi_line s :: commentSrcs rest' := rfl
            _ = Comment.multi_line s :: (rootComments es2 ++ commentSrcs r2) := by rw [hr]
            _ = rootComments (RootEntry.comment (Comment.multi_line s) :: es2)
                  ++ commentSrcs r2 := by simp [rootComments, rootEntryComments]
        · exact absurd h (by simp)
    · rename_i u1 u2 u3 u4 s u5 u6 u7 u8 rest'
      split at h
      · exact absurd h (by simp)
      · rename_i f0 f2 heq
        have hf : f2 = f' := by omega
        rw [hf] at h
        split at h
        · rename_i es2 r2 hrec
          injection h with h
          injection h with h1 h2
          have hr := ih _ _ _ _ hrec
          rw [← h1, ← h2]
          calc commentSrcs ((Token.kwSyn, u1, u2) :: (Token.eq, u3, u4)
                :: (Token.strLit s, u5, u6) :: (Token.semicolon, u7, u8) :: rest')
              = commentSrcs rest' := by
                rw [commentSrcs_cons _ _ _ _ (by rfl), commentSrcs_cons _ _ _ _ (by rfl),
                  commentSrcs_cons _ _ _ _ (by rfl), commentSrcs_cons _ _ _ _ (by rfl)]
            _ = rootComments es2 ++ commentSrcs r2 := hr
            _ = rootComments (RootEntry.synDecl s :: es2) ++ commentSrcs r2 := by
                simp [rootComments, rootEntryComments]
        · exact absurd h (by simp)
    · split at h
      · exact absurd h (by simp)
      · rename_i f0 f2 heq
        have hf : f2 = f' := by omega
        rw [hf] at h
        split at h
        · rename_i m r1 hmsg
          split at h
          · rename_i es2 r2 hrec
            injection h with h
            injection h with h1 h2
            have hm := (msgParse_comments f').2.2 _ _ _ _ hmsg
            have hr := ih _ _ _ _ hrec
            rw [← h1, ← h2, hm, hr]
            simp [rootComments, rootEntryComments]
          · exact absurd h (by simp)
        · exact absurd h (by simp)
    · split at h
      · exact absurd h (by simp)
      · rename_i f0 f2 heq
        have hf : f2 = f' := by omega
        rw [hf] at h
        split at h
        · rename_i sv r1 hsvc
          split at h
          · rename_i es2 r2 hrec
            injection h with h
            injection h with h1 h2
            have hs := parseService_comments _ _ _ _ hsvc
            have hr := ih _ _ _ _ hrec
            rw [← h1, ← h2, hs, hr]
            simp [rootComments, rootEntryComments]
          · exact absurd h (by simp)
        · exact absurd h (by simp)
    · exact absurd h (by simp)

/-- C6: every comment token of the input appears in the parsed tree as a
first-class comment entry at its nesting level: the comments collected
from the tree in pre-order (source order) are exactly the comment tokens
of the input, in order, with the raw delimiter-carrying source text
preserved verbatim via the `Comment` constructors — including a comment
that is the last token inside a block and a comment at the end of the
file. -/
theorem claim_c6_comment_retention (src : String) (f : Nat) (ts : List STok) (root : Root)
    (h : parseRoot src f ts = some root) : rootComments root = commentSrcs ts := by
  unfold parseRoot at h
  split at h
  · rename_i es hents
    injection h with h
    rw [← h]
    have := parseRootEntries_comments _ _ _ _ _ hents
    rw [this]
    simp [commentSrcs]
  · exact absurd h (by simp)

/-- Witness for C6: a parse of a concrete token stream whose comments sit
at top level, inside a message, inside a nested message, inside a service,
as the last token of a block, and as the last token of the file. -/
theorem claim_c6_comment_retention_witness :
    rootComments ((parseRoot "" 64 c6Toks).getD []) = commentSrcs c6Toks :=
  claim_c6_comment_retention "" 64 c6Toks _ (by rfl)

/-- Witness for C8 at a concrete single-quoted literal containing an
escaped quote: the lexeme is closed by the matching quote, the content is
the verbatim inner slice with the escape uninterpreted, and no newline
occurs inside. -/
theorem claim_c8_string_literal_witness :
    ∃ inner, ['\'', 'a', '\\', '\'', 'b', '\''] = '\'' :: (inner ++ ['\''])
      ∧ ['\'', 'a', '\\', '\'', 'b', '\'', 'x'] = ('\'' :: (inner ++ ['\''])) ++ ['x']
      ∧ ['a', '\\', '\'', 'b'] = inner
      ∧ ['a', '\\', '\'', 'b'] = stringFromLexer ['\'', 'a', '\\', '\'', 'b', '\'']
      ∧ '\n' ∉ inner :=
  claim_c8_string_literal.1 '\'' ['\'', 'a', '\\', '\'', 'b', '\'', 'x']
    ['\'', 'a', '\\', '\'', 'b', '\''] ['a', '\\', '\'', 'b'] ['x'] (Or.inl rfl) (by rfl)

/-- C2: every declared keyword is usable as a message name, a nested
message name, a field type, and a dotted field-type segment, with the
parse yielding the keyword's spelled text as the name; and the tokenizer
classifies each spelled keyword word as its specific keyword token, never
as an identifier token. -/
theorem claim_c2_keywords_as_names : keywordSpellings.all checkKw = true := by rfl

end Proto
